import Mathlib

/-!
Shallow embedding of the unseal/init orchestrator of kube-vault/unsealer
(`src/pkg/vault/vault.go`) together with proofs of the testable properties
of its specification.

The keystore (`kv.Service`) is modelled as an explicit state: an association
list of present entries plus error-injection functions describing which
`Get`/`Set`/`Test` calls fail and how.  The vault client is modelled by
response functions.  Every orchestrator operation returns its outcome, the
final keystore state, and a trace of the external calls it performed, so
that claims counting keystore reads, writes and vault submissions can be
stated directly.
-/

namespace Unsealer

/-- Configuration of the orchestrator (struct `VaultOptions` in `pkg/vault`). -/
structure VaultOptions where
  KeyPrefix : String
  SecretShares : Nat
  SecretThreshold : Nat
  OverwriteExisting : Bool
  StoreRootToken : Bool
deriving DecidableEq

/-- Key for the i-th unseal share: `fmt.Sprintf("%s-unseal-%d", KeyPrefix, i)`. -/
def unsealKeyForID (cfg : VaultOptions) (i : Nat) : String :=
  cfg.KeyPrefix ++ "-unseal-" ++ Nat.repr i

/-- Key for the root token: `fmt.Sprintf("%s-root", KeyPrefix)`. -/
def rootTokenKey (cfg : VaultOptions) : String :=
  cfg.KeyPrefix ++ "-root"

/-- Key used for the keystore probe: `fmt.Sprintf("%s-test", KeyPrefix)`. -/
def testKey (cfg : VaultOptions) : String :=
  cfg.KeyPrefix ++ "-test"

/-- Outcome of a keystore `Get`: a value, the distinguished not-found error
(`*kv.NotFoundError`), or any other error. -/
inductive GetResult where
  | ok (v : String)
  | notFound
  | fail (msg : String)
deriving DecidableEq

/-- State/behaviour of a `kv.Service` backend: the entries currently present,
plus which `Get`/`Set` calls fail with a non-not-found error and whether
`Test` fails. -/
structure Store where
  entries : List (String × String)
  getErr : String → Option String
  setErr : String → Option String
  testErr : Option String

/-- Association-list lookup (first binding wins). -/
def lookupEntry : List (String × String) → String → Option String
  | [], _ => none
  | (k, v) :: rest, key => if k = key then some v else lookupEntry rest key

/-- Association-list update/insert. -/
def setEntry : List (String × String) → String → String → List (String × String)
  | [], key, val => [(key, val)]
  | (k, v) :: rest, key, val =>
      if k = key then (key, val) :: rest else (k, v) :: setEntry rest key val

/-- Semantics of `keyStore.Get`. -/
def Store.get (s : Store) (key : String) : GetResult :=
  match s.getErr key with
  | some m => .fail m
  | none =>
    match lookupEntry s.entries key with
    | some v => .ok v
    | none => .notFound

/-- Semantics of `keyStore.Set`: either fails leaving the state unchanged, or
stores the value. -/
def Store.doSet (s : Store) (key val : String) : Except String Store :=
  match s.setErr key with
  | some m => .error m
  | none => .ok { s with entries := setEntry s.entries key val }

/-- One external call made by the orchestrator. -/
inductive Event where
  | get (key : String)
  | set (key : String) (val : String)
  | probe (key : String)
  | vaultInit (shares : Nat) (threshold : Nat)
  | submit (share : String)
deriving DecidableEq

/-- Number of keystore reads in a trace. -/
def countGets (ev : List Event) : Nat :=
  (ev.filter fun e => match e with | .get _ => true | _ => false).length

/-- Number of unseal submissions to the vault in a trace. -/
def countSubmits (ev : List Event) : Nat :=
  (ev.filter fun e => match e with | .submit _ => true | _ => false).length

/-! ### Injectivity of decimal key derivation

`fmt.Sprintf("%s-unseal-%d", p, i)` is modelled with `Nat.repr`; we prove
`Nat.repr` injective so that distinct share indices derive distinct keys. -/

/-- Decimal digit list of a natural number (most significant first), the
fuel-free counterpart of `Nat.toDigitsCore 10`. -/
def decDigits (n : Nat) : List Char :=
  if n < 10 then [Nat.digitChar n]
  else decDigits (n / 10) ++ [Nat.digitChar (n % 10)]
termination_by n
decreasing_by exact Nat.div_lt_self (by omega) (by omega)

theorem decDigits_lt {n : Nat} (h : n < 10) : decDigits n = [Nat.digitChar n] := by
  rw [decDigits]
  exact if_pos h

theorem decDigits_ge {n : Nat} (h : 10 ≤ n) :
    decDigits n = decDigits (n / 10) ++ [Nat.digitChar (n % 10)] := by
  conv_lhs => rw [decDigits]
  exact if_neg (by omega)

theorem decDigits_ne_nil (n : Nat) : decDigits n ≠ [] := by
  by_cases h : n < 10
  · rw [decDigits_lt h]; simp
  · rw [decDigits_ge (by omega)]; simp

theorem toDigitsCore_eq_decDigits (fuel : Nat) :
    ∀ n, ∀ acc : List Char, n < fuel →
      Nat.toDigitsCore 10 fuel n acc = decDigits n ++ acc := by
  induction fuel with
  | zero => intro n acc h; omega
  | succ fuel ih =>
    intro n acc h
    show (if n / 10 = 0 then Nat.digitChar (n % 10) :: acc
      else Nat.toDigitsCore 10 fuel (n / 10) (Nat.digitChar (n % 10) :: acc))
        = decDigits n ++ acc
    by_cases h10 : n / 10 = 0
    · have hn : n < 10 := (Nat.div_eq_zero_iff (by omega)).mp h10
      rw [if_pos h10, Nat.mod_eq_of_lt hn, decDigits_lt hn]
      rfl
    · have hn : 10 ≤ n := by
        by_contra hc
        exact h10 (Nat.div_eq_of_lt (by omega))
      have hdiv : n / 10 < fuel :=
        lt_of_lt_of_le (Nat.div_lt_self (by omega) (by omega)) (by omega)
      rw [if_neg h10, ih (n / 10) (Nat.digitChar (n % 10) :: acc) hdiv,
        decDigits_ge hn, List.append_assoc]
      rfl

theorem digitChar_inj_lt :
    ∀ a, a < 10 → ∀ b, b < 10 → Nat.digitChar a = Nat.digitChar b → a = b := by
  decide

theorem snoc_inj {α : Type} {xs ys : List α} {a b : α}
    (h : xs ++ [a] = ys ++ [b]) : xs = ys ∧ a = b := by
  have h' := congrArg List.reverse h
  simp only [List.reverse_append, List.reverse_cons, List.reverse_nil,
    List.nil_append, List.cons_append] at h'
  obtain ⟨rfl, h2⟩ := List.cons.injEq a xs.reverse b ys.reverse ▸ h'
  exact ⟨List.reverse_injective h2, rfl⟩

theorem decDigits_inj (m : Nat) : ∀ n, decDigits m = decDigits n → m = n := by
  induction m using Nat.strong_induction_on with
  | _ m ih =>
    intro n h
    by_cases hm : m < 10 <;> by_cases hn : n < 10
    · rw [decDigits_lt hm, decDigits_lt hn] at h
      exact digitChar_inj_lt m hm n hn (List.singleton_injective h)
    · exfalso
      rw [decDigits_lt hm, decDigits_ge (show 10 ≤ n by omega)] at h
      have h1 := congrArg List.length h
      have h2 := decDigits_ne_nil (n / 10)
      simp only [List.length_singleton, List.length_append] at h1
      have := List.length_pos.mpr h2
      omega
    · exfalso
      rw [decDigits_ge (show 10 ≤ m by omega), decDigits_lt hn] at h
      have h1 := congrArg List.length h
      have h2 := decDigits_ne_nil (m / 10)
      simp only [List.length_singleton, List.length_append] at h1
      have := List.length_pos.mpr h2
      omega
    · rw [decDigits_ge (show 10 ≤ m by omega),
        decDigits_ge (show 10 ≤ n by omega)] at h
      obtain ⟨hpre, hlast⟩ := snoc_inj h
      have hdivlt : m / 10 < m := Nat.div_lt_self (by omega) (by omega)
      have hdiv : m / 10 = n / 10 := ih (m / 10) hdivlt (n / 10) hpre
      have hmod : m % 10 = n % 10 :=
        digitChar_inj_lt (m % 10) (Nat.mod_lt _ (by omega)) (n % 10)
          (Nat.mod_lt _ (by omega)) hlast
      omega

theorem natRepr_inj {m n : Nat} (h : Nat.repr m = Nat.repr n) : m = n := by
  have h' : Nat.toDigits 10 m = Nat.toDigits 10 n := congrArg String.data h
  rw [Nat.toDigits, Nat.toDigits,
    toDigitsCore_eq_decDigits (m + 1) m [] (by omega),
    toDigitsCore_eq_decDigits (n + 1) n [] (by omega),
    List.append_nil, List.append_nil] at h'
  exact decDigits_inj m n h'

theorem natRepr_length_pos (n : Nat) : 0 < (Nat.repr n).length := by
  show 0 < (Nat.toDigits 10 n).length
  rw [Nat.toDigits, toDigitsCore_eq_decDigits (n + 1) n [] (by omega),
    List.append_nil]
  exact List.length_pos.mpr (decDigits_ne_nil n)

theorem string_data_ext {s t : String} (h : s.data = t.data) : s = t := by
  cases s
  cases t
  exact congrArg String.mk h

theorem unsealKeyForID_inj (cfg : VaultOptions) {i j : Nat}
    (h : unsealKeyForID cfg i = unsealKeyForID cfg j) : i = j := by
  unfold unsealKeyForID at h
  have h' := congrArg String.data h
  simp only [String.data_append] at h'
  exact natRepr_inj (string_data_ext (List.append_cancel_left h'))

theorem unsealKey_ne_rootKey (cfg : VaultOptions) (i : Nat) :
    unsealKeyForID cfg i ≠ rootTokenKey cfg := by
  intro h
  have h' := congrArg String.length h
  unfold unsealKeyForID rootTokenKey at h'
  simp only [String.length_append] at h'
  have h8 : ("-unseal-" : String).length = 8 := rfl
  have h5 : ("-root" : String).length = 5 := rfl
  have := natRepr_length_pos i
  omega

/-! ### The orchestrator (`vault.go`) -/

/-- Result of `keyStoreNotFound`: true iff the probe `Get` failed with the
distinguished `*kv.NotFoundError`. -/
def keyStoreNotFoundB (s : Store) (key : String) : Bool :=
  match s.get key with
  | .notFound => true
  | _ => false

/-- Embedding of `keyStoreSet`: unless `OverwriteExisting`, a guarding
`Get` (via `keyStoreNotFound`) must report not-found before `Set` is
attempted.  Returns the result together with the calls performed. -/
def keyStoreSet (cfg : VaultOptions) (s : Store) (key val : String) :
    Except String Store × List Event :=
  if cfg.OverwriteExisting then
    (s.doSet key val, [.set key val])
  else if keyStoreNotFoundB s key then
    (s.doSet key val, [.get key, .set key val])
  else
    (.error ("error setting key " ++ key), [.get key])

/-- The pre-initialization existence check: probe each key in order, abort
on the first one whose `Get` does not report not-found. -/
def checkKeys (s : Store) : List String → Option String × List Event
  | [] => (none, [])
  | k :: ks =>
    if keyStoreNotFoundB s k then
      let r := checkKeys s ks
      (r.1, Event.get k :: r.2)
    else (some k, [Event.get k])

/-- The keys probed by `Init` before initializing: the root-token key, then
the unseal keys for indices `0` through `SecretShares` inclusive (the
source loop is `for i := 0; i <= u.config.SecretShares; i++`). -/
def initPrecheckKeys (cfg : VaultOptions) : List String :=
  rootTokenKey cfg :: (List.range (cfg.SecretShares + 1)).map (unsealKeyForID cfg)

/-- The share-storing loop of `Init`: write each returned share under its
derived key via `keyStoreSet`, aborting at the first failure.  Returns the
index of the failed write (if any), the resulting store, and the trace. -/
def storeShares (cfg : VaultOptions) :
    Store → Nat → List String → Option Nat × Store × List Event
  | s, _, [] => (none, s, [])
  | s, i, k :: ks =>
    match keyStoreSet cfg s (unsealKeyForID cfg i) k with
    | (.ok s', ev) =>
      let r := storeShares cfg s' (i + 1) ks
      (r.1, r.2.1, ev ++ r.2.2)
    | (.error _, ev) => (some i, s, ev)

/-- The vault's response to `sys.Init`: the generated shares and root token. -/
structure InitResponse where
  Keys : List String
  RootToken : String
deriving DecidableEq

/-- Outcome of `Init` (each error constructor corresponds to one wrapped
error return in the source). -/
inductive InitOutcome where
  | ok
  | testFailed (msg : String)
  | preexistingKey (key : String)
  | vaultInitFailed (msg : String)
  | storeShareFailed (i : Nat)
  | storeRootFailed
deriving DecidableEq

/-- Embedding of `(*vault).Init`.  `vinit shares threshold` is the vault's
response to the initialization request.  Returns the outcome, the final
keystore state and the trace of external calls. -/
def Init (cfg : VaultOptions) (vinit : Nat → Nat → Except String InitResponse)
    (s : Store) : InitOutcome × Store × List Event :=
  match s.testErr with
  | some m => (.testFailed m, s, [.probe (testKey cfg)])
  | none =>
    match
      (if cfg.OverwriteExisting then (none, [])
       else checkKeys s (initPrecheckKeys cfg) :
        Option String × List Event) with
    | (some k, ev) => (.preexistingKey k, s, Event.probe (testKey cfg) :: ev)
    | (none, ev) =>
      match vinit cfg.SecretShares cfg.SecretThreshold with
      | .error m =>
        (.vaultInitFailed m, s,
          Event.probe (testKey cfg) :: ev
            ++ [Event.vaultInit cfg.SecretShares cfg.SecretThreshold])
      | .ok resp =>
        let tr1 := Event.probe (testKey cfg) :: ev
          ++ [Event.vaultInit cfg.SecretShares cfg.SecretThreshold]
        match storeShares cfg s 0 resp.Keys with
        | (some i, s1, ev1) => (.storeShareFailed i, s1, tr1 ++ ev1)
        | (none, s1, ev1) =>
          if cfg.StoreRootToken then
            match keyStoreSet cfg s1 (rootTokenKey cfg) resp.RootToken with
            | (.ok s2, ev2) => (.ok, s2, tr1 ++ ev1 ++ ev2)
            | (.error _, ev2) => (.storeRootFailed, s1, tr1 ++ ev1 ++ ev2)
          else (.ok, s1, tr1 ++ ev1)

/-- The `api.SealStatusResponse` fields the orchestrator inspects. -/
structure SealStatus where
  Sealed : Bool
  Progress : Int
deriving DecidableEq

/-- Outcome of `Unseal` (plus `outOfFuel` for the fuelled embedding of the
source's unbounded `for` loop). -/
inductive UnsealOutcome where
  | ok
  | getFailed (key : String)
  | submitFailed (msg : String)
  | progressReset
  | outOfFuel
deriving DecidableEq

/-- Embedding of the loop body of `(*vault).Unseal`.  `cl i k` is the
vault's response to submitting share `k` as the `i`-th submission of this
call.  The source loop has no bound; `fuel` only limits the depth of the
embedding and every claim quantifies over sufficient fuel. -/
def unsealLoop (cfg : VaultOptions) (s : Store)
    (cl : Nat → String → Except String SealStatus) :
    Nat → Nat → UnsealOutcome × List Event
  | 0, _ => (.outOfFuel, [])
  | fuel + 1, i =>
    let keyID := unsealKeyForID cfg i
    match s.get keyID with
    | .ok k =>
      (match cl i k with
      | .error m => (.submitFailed m, [.get keyID, .submit k])
      | .ok resp =>
        if resp.Sealed = false then (.ok, [.get keyID, .submit k])
        else if resp.Progress = 0 then (.progressReset, [.get keyID, .submit k])
        else
          let r := unsealLoop cfg s cl fuel (i + 1)
          (r.1, Event.get keyID :: Event.submit k :: r.2))
    | _ => (.getFailed keyID, [.get keyID])

/-- Embedding of `(*vault).Unseal`: run the loop from index 0. -/
def Unseal (cfg : VaultOptions) (s : Store)
    (cl : Nat → String → Except String SealStatus) (fuel : Nat) :
    UnsealOutcome × List Event :=
  unsealLoop cfg s cl fuel 0

/-! ### Trace-counting lemmas -/

theorem countGets_nil : countGets [] = 0 := rfl

theorem countSubmits_nil : countSubmits [] = 0 := rfl

theorem countGets_cons_get (k : String) (ev : List Event) :
    countGets (Event.get k :: ev) = countGets ev + 1 := by
  simp [countGets, List.filter]

theorem countGets_cons_submit (k : String) (ev : List Event) :
    countGets (Event.submit k :: ev) = countGets ev := by
  simp [countGets, List.filter]

theorem countSubmits_cons_get (k : String) (ev : List Event) :
    countSubmits (Event.get k :: ev) = countSubmits ev := by
  simp [countSubmits, List.filter]

theorem countSubmits_cons_submit (k : String) (ev : List Event) :
    countSubmits (Event.submit k :: ev) = countSubmits ev + 1 := by
  simp [countSubmits, List.filter]

theorem countGets_append (a b : List Event) :
    countGets (a ++ b) = countGets a + countGets b := by
  simp [countGets, List.filter_append]

theorem countSubmits_append (a b : List Event) :
    countSubmits (a ++ b) = countSubmits a + countSubmits b := by
  simp [countSubmits, List.filter_append]

/-! ### Stepping lemmas for the unseal loop -/

theorem unsealLoop_step_getFailed (cfg : VaultOptions) (s : Store)
    (cl : Nat → String → Except String SealStatus) (fuel i : Nat)
    (hk : ∀ v, s.get (unsealKeyForID cfg i) ≠ .ok v) :
    unsealLoop cfg s cl (fuel + 1) i
      = (.getFailed (unsealKeyForID cfg i), [.get (unsealKeyForID cfg i)]) := by
  cases hg : s.get (unsealKeyForID cfg i) with
  | ok v => exact absurd hg (hk v)
  | notFound => simp only [unsealLoop, hg]
  | fail m => simp only [unsealLoop, hg]

theorem unsealLoop_step_submitFailed (cfg : VaultOptions) (s : Store)
    (cl : Nat → String → Except String SealStatus) (fuel i : Nat) (k m : String)
    (hk : s.get (unsealKeyForID cfg i) = .ok k) (hcl : cl i k = .error m) :
    unsealLoop cfg s cl (fuel + 1) i
      = (.submitFailed m, [.get (unsealKeyForID cfg i), .submit k]) := by
  simp only [unsealLoop, hk, hcl]

theorem unsealLoop_step_unsealed (cfg : VaultOptions) (s : Store)
    (cl : Nat → String → Except String SealStatus) (fuel i : Nat) (k : String)
    (p : Int) (hk : s.get (unsealKeyForID cfg i) = .ok k)
    (hcl : cl i k = .ok ⟨false, p⟩) :
    unsealLoop cfg s cl (fuel + 1) i
      = (.ok, [.get (unsealKeyForID cfg i), .submit k]) := by
  simp only [unsealLoop, hk, hcl]
  simp

theorem unsealLoop_step_progressReset (cfg : VaultOptions) (s : Store)
    (cl : Nat → String → Except String SealStatus) (fuel i : Nat) (k : String)
    (hk : s.get (unsealKeyForID cfg i) = .ok k)
    (hcl : cl i k = .ok ⟨true, 0⟩) :
    unsealLoop cfg s cl (fuel + 1) i
      = (.progressReset, [.get (unsealKeyForID cfg i), .submit k]) := by
  simp only [unsealLoop, hk, hcl]
  simp

theorem unsealLoop_step_continue (cfg : VaultOptions) (s : Store)
    (cl : Nat → String → Except String SealStatus) (fuel i : Nat) (k : String)
    (p : Int) (hp : p ≠ 0) (hk : s.get (unsealKeyForID cfg i) = .ok k)
    (hcl : cl i k = .ok ⟨true, p⟩) :
    unsealLoop cfg s cl (fuel + 1) i
      = ((unsealLoop cfg s cl fuel (i + 1)).1,
          Event.get (unsealKeyForID cfg i) :: Event.submit k
            :: (unsealLoop cfg s cl fuel (i + 1)).2) := by
  simp only [unsealLoop, hk, hcl]
  simp [hp]

/-- Running the loop at index `i` when the first `m` indices all yield a
share whose submission leaves the vault sealed with nonzero progress is the
same as running it at index `i + m`, with `m` extra reads and submissions. -/
theorem unsealLoop_skip (cfg : VaultOptions) (s : Store)
    (cl : Nat → String → Except String SealStatus) (sh : Nat → String)
    (m : Nat) : ∀ i fuel,
    (∀ j, j < m → s.get (unsealKeyForID cfg (i + j)) = .ok (sh (i + j))) →
    (∀ j, j < m → ∃ p, p ≠ 0 ∧ cl (i + j) (sh (i + j)) = .ok ⟨true, p⟩) →
    (unsealLoop cfg s cl (m + fuel) i).1 = (unsealLoop cfg s cl fuel (i + m)).1 ∧
    countGets (unsealLoop cfg s cl (m + fuel) i).2
      = m + countGets (unsealLoop cfg s cl fuel (i + m)).2 ∧
    countSubmits (unsealLoop cfg s cl (m + fuel) i).2
      = m + countSubmits (unsealLoop cfg s cl fuel (i + m)).2 := by
  induction m with
  | zero =>
    intro i fuel _ _
    simp
  | succ m ih =>
    intro i fuel hget hcl
    obtain ⟨p, hp, hclp⟩ := hcl 0 (by omega)
    have hk := hget 0 (by omega)
    rw [Nat.add_zero] at hclp hk
    have hstep :=
      unsealLoop_step_continue cfg s cl (m + fuel) i (sh i) p hp hk hclp
    have harith : m + 1 + fuel = m + fuel + 1 := by omega
    have ih' := ih (i + 1) fuel
      (fun j hj => by
        have h := hget (j + 1) (by omega)
        rwa [show i + (j + 1) = i + 1 + j by omega] at h)
      (fun j hj => by
        have h := hcl (j + 1) (by omega)
        rwa [show i + (j + 1) = i + 1 + j by omega] at h)
    rw [harith, hstep, show i + (m + 1) = i + 1 + m by omega]
    refine ⟨ih'.1, ?_, ?_⟩
    · show countGets (Event.get _ :: Event.submit _ :: _) = _
      rw [countGets_cons_get, countGets_cons_submit, ih'.2.1]
      omega
    · show countSubmits (Event.get _ :: Event.submit _ :: _) = _
      rw [countSubmits_cons_get, countSubmits_cons_submit, ih'.2.2]
      omega

/-- C3: if the keystore yields shares for indices `0..k-1`, every submission
before the `k`-th leaves the vault sealed with nonzero progress, and the
`k`-th submission reports `Sealed == false`, then `Unseal` returns success
having performed exactly `k` keystore reads and `k` vault submissions. -/
theorem unseal_threshold_success (cfg : VaultOptions) (s : Store)
    (cl : Nat → String → Except String SealStatus) (sh : Nat → String)
    (k fuel : Nat) (hk0 : 0 < k) (hfuel : k ≤ fuel)
    (hget : ∀ j, j < k → s.get (unsealKeyForID cfg j) = .ok (sh j))
    (hmid : ∀ j, j + 1 < k → ∃ p, p ≠ 0 ∧ cl j (sh j) = .ok ⟨true, p⟩)
    (hlast : ∃ p, cl (k - 1) (sh (k - 1)) = .ok ⟨false, p⟩) :
    (Unseal cfg s cl fuel).1 = .ok ∧
    countGets (Unseal cfg s cl fuel).2 = k ∧
    countSubmits (Unseal cfg s cl fuel).2 = k := by
  obtain ⟨p, hp⟩ := hlast
  have hskip := unsealLoop_skip cfg s cl sh (k - 1) 0 (fuel - (k - 1))
    (fun j hj => by simpa using hget j (by omega))
    (fun j hj => by simpa using hmid j (by omega))
  have harith : k - 1 + (fuel - (k - 1)) = fuel := by omega
  have hf2 : fuel - (k - 1) = (fuel - k) + 1 := by omega
  have hstep := unsealLoop_step_unsealed cfg s cl (fuel - k) (0 + (k - 1))
    (sh (k - 1)) p (by simpa using hget (k - 1) (by omega)) (by simpa using hp)
  rw [harith, hf2, hstep] at hskip
  unfold Unseal
  refine ⟨hskip.1, ?_, ?_⟩
  · rw [hskip.2.1]
    show k - 1 + countGets [Event.get _, Event.submit _] = k
    rw [show ([Event.get (unsealKeyForID cfg (0 + (k - 1))),
      Event.submit (sh (k - 1))] : List Event)
        = Event.get (unsealKeyForID cfg (0 + (k - 1)))
            :: Event.submit (sh (k - 1)) :: [] from rfl,
      countGets_cons_get, countGets_cons_submit, countGets_nil]
    omega
  · rw [hskip.2.2]
    show k - 1 + countSubmits [Event.get _, Event.submit _] = k
    rw [show ([Event.get (unsealKeyForID cfg (0 + (k - 1))),
      Event.submit (sh (k - 1))] : List Event)
        = Event.get (unsealKeyForID cfg (0 + (k - 1)))
            :: Event.submit (sh (k - 1)) :: [] from rfl,
      countSubmits_cons_get, countSubmits_cons_submit, countSubmits_nil]
    omega

/-- Witness for C3: prefix `prod`, three shares stored, the vault unseals on
the third submission; `Unseal` succeeds with exactly 3 reads and 3 submits. -/
theorem unseal_threshold_success_witness :
    (Unseal ⟨"prod", 5, 3, false, true⟩
        ⟨[("prod-unseal-0", "a"), ("prod-unseal-1", "b"), ("prod-unseal-2", "c")],
          fun _ => none, fun _ => none, none⟩
        (fun i _ => if i < 2 then .ok ⟨true, 1⟩ else .ok ⟨false, 0⟩) 10).1 = .ok ∧
    countGets (Unseal ⟨"prod", 5, 3, false, true⟩
        ⟨[("prod-unseal-0", "a"), ("prod-unseal-1", "b"), ("prod-unseal-2", "c")],
          fun _ => none, fun _ => none, none⟩
        (fun i _ => if i < 2 then .ok ⟨true, 1⟩ else .ok ⟨false, 0⟩) 10).2 = 3 ∧
    countSubmits (Unseal ⟨"prod", 5, 3, false, true⟩
        ⟨[("prod-unseal-0", "a"), ("prod-unseal-1", "b"), ("prod-unseal-2", "c")],
          fun _ => none, fun _ => none, none⟩
        (fun i _ => if i < 2 then .ok ⟨true, 1⟩ else .ok ⟨false, 0⟩) 10).2 = 3 := by
  exact unseal_threshold_success ⟨"prod", 5, 3, false, true⟩
    ⟨[("prod-unseal-0", "a"), ("prod-unseal-1", "b"), ("prod-unseal-2", "c")],
      fun _ => none, fun _ => none, none⟩
    (fun i _ => if i < 2 then .ok ⟨true, 1⟩ else .ok ⟨false, 0⟩)
    (fun j => if j = 0 then "a" else if j = 1 then "b" else "c")
    3 10 (by omega) (by omega) (by decide)
    (fun j hj => ⟨1, by omega, by
      have hj2 : j < 2 := by omega
      interval_cases j <;> rfl⟩)
    ⟨0, rfl⟩

/-- C4: the first time a submission's response reports `Sealed == true` and
`Progress == 0` (after `k - 1` sealed responses with nonzero progress),
`Unseal` returns the terminal progress-reset error having performed exactly
`k` keystore reads and `k` vault submissions — nothing after that response. -/
theorem unseal_progress_reset_terminal (cfg : VaultOptions) (s : Store)
    (cl : Nat → String → Except String SealStatus) (sh : Nat → String)
    (k fuel : Nat) (hk0 : 0 < k) (hfuel : k ≤ fuel)
    (hget : ∀ j, j < k → s.get (unsealKeyForID cfg j) = .ok (sh j))
    (hmid : ∀ j, j + 1 < k → ∃ p, p ≠ 0 ∧ cl j (sh j) = .ok ⟨true, p⟩)
    (hlast : cl (k - 1) (sh (k - 1)) = .ok ⟨true, 0⟩) :
    (Unseal cfg s cl fuel).1 = .progressReset ∧
    countGets (Unseal cfg s cl fuel).2 = k ∧
    countSubmits (Unseal cfg s cl fuel).2 = k := by
  have hskip := unsealLoop_skip cfg s cl sh (k - 1) 0 (fuel - (k - 1))
    (fun j hj => by simpa using hget j (by omega))
    (fun j hj => by simpa using hmid j (by omega))
  have harith : k - 1 + (fuel - (k - 1)) = fuel := by omega
  have hf2 : fuel - (k - 1) = (fuel - k) + 1 := by omega
  have hstep := unsealLoop_step_progressReset cfg s cl (fuel - k) (0 + (k - 1))
    (sh (k - 1)) (by simpa using hget (k - 1) (by omega)) (by simpa using hlast)
  rw [harith, hf2, hstep] at hskip
  unfold Unseal
  refine ⟨hskip.1, ?_, ?_⟩
  · rw [hskip.2.1]
    show k - 1 + countGets (Event.get _ :: Event.submit _ :: []) = k
    rw [countGets_cons_get, countGets_cons_submit, countGets_nil]
    omega
  · rw [hskip.2.2]
    show k - 1 + countSubmits (Event.get _ :: Event.submit _ :: []) = k
    rw [countSubmits_cons_get, countSubmits_cons_submit, countSubmits_nil]
    omega

/-- Witness for C4: the second submission comes back sealed with progress 0;
`Unseal` fails terminally after exactly 2 reads and 2 submissions. -/
theorem unseal_progress_reset_terminal_witness :
    (Unseal ⟨"prod", 5, 3, false, true⟩
        ⟨[("prod-unseal-0", "a"), ("prod-unseal-1", "b"), ("prod-unseal-2", "c")],
          fun _ => none, fun _ => none, none⟩
        (fun i _ => if i < 1 then .ok ⟨true, 1⟩ else .ok ⟨true, 0⟩) 10).1
      = .progressReset ∧
    countGets (Unseal ⟨"prod", 5, 3, false, true⟩
        ⟨[("prod-unseal-0", "a"), ("prod-unseal-1", "b"), ("prod-unseal-2", "c")],
          fun _ => none, fun _ => none, none⟩
        (fun i _ => if i < 1 then .ok ⟨true, 1⟩ else .ok ⟨true, 0⟩) 10).2 = 2 ∧
    countSubmits (Unseal ⟨"prod", 5, 3, false, true⟩
        ⟨[("prod-unseal-0", "a"), ("prod-unseal-1", "b"), ("prod-unseal-2", "c")],
          fun _ => none, fun _ => none, none⟩
        (fun i _ => if i < 1 then .ok ⟨true, 1⟩ else .ok ⟨true, 0⟩) 10).2 = 2 := by
  exact unseal_progress_reset_terminal ⟨"prod", 5, 3, false, true⟩
    ⟨[("prod-unseal-0", "a"), ("prod-unseal-1", "b"), ("prod-unseal-2", "c")],
      fun _ => none, fun _ => none, none⟩
    (fun i _ => if i < 1 then .ok ⟨true, 1⟩ else .ok ⟨true, 0⟩)
    (fun j => if j = 0 then "a" else if j = 1 then "b" else "c")
    2 10 (by omega) (by omega) (by decide)
    (fun j hj => ⟨1, by omega, by
      have hj2 : j < 1 := by omega
      interval_cases j
      rfl⟩)
    rfl

/-- C5: if the keystore fetch for index `m` fails (not-found or any other
error) after `m` successful rounds, `Unseal` stops with an error having made
`m + 1` reads and only `m` submissions — none for the failing index.  With
`m = 0` this is the scenario of a fetch failure on the very first key. -/
theorem unseal_get_failure_stops (cfg : VaultOptions) (s : Store)
    (cl : Nat → String → Except String SealStatus) (sh : Nat → String)
    (m fuel : Nat) (hfuel : m + 1 ≤ fuel)
    (hget : ∀ j, j < m → s.get (unsealKeyForID cfg j) = .ok (sh j))
    (hmid : ∀ j, j < m → ∃ p, p ≠ 0 ∧ cl j (sh j) = .ok ⟨true, p⟩)
    (hfail : ∀ v, s.get (unsealKeyForID cfg m) ≠ .ok v) :
    (Unseal cfg s cl fuel).1 = .getFailed (unsealKeyForID cfg m) ∧
    countGets (Unseal cfg s cl fuel).2 = m + 1 ∧
    countSubmits (Unseal cfg s cl fuel).2 = m := by
  have hskip := unsealLoop_skip cfg s cl sh m 0 (fuel - m)
    (fun j hj => by simpa using hget j hj)
    (fun j hj => by simpa using hmid j hj)
  have harith : m + (fuel - m) = fuel := by omega
  have hf2 : fuel - m = (fuel - (m + 1)) + 1 := by omega
  have hstep := unsealLoop_step_getFailed cfg s cl (fuel - (m + 1)) (0 + m)
    (fun v => by simpa using hfail v)
  rw [harith, hf2, hstep] at hskip
  unfold Unseal
  refine ⟨by rw [hskip.1]; simp, ?_, ?_⟩
  · rw [hskip.2.1]
    show m + countGets (Event.get _ :: []) = m + 1
    rw [countGets_cons_get, countGets_nil]
  · rw [hskip.2.2]
    show m + countSubmits (Event.get _ :: []) = m
    rw [countSubmits_cons_get, countSubmits_nil]
    omega

/-- Witness for C5: `prod-unseal-0` is absent from the keystore, so the very
first fetch fails and `Unseal` errors with one read and zero submissions. -/
theorem unseal_get_failure_stops_witness :
    (Unseal ⟨"prod", 5, 3, false, true⟩ ⟨[], fun _ => none, fun _ => none, none⟩
        (fun _ _ => .ok ⟨true, 1⟩) 10).1 = .getFailed "prod-unseal-0" ∧
    countGets (Unseal ⟨"prod", 5, 3, false, true⟩
        ⟨[], fun _ => none, fun _ => none, none⟩
        (fun _ _ => .ok ⟨true, 1⟩) 10).2 = 0 + 1 ∧
    countSubmits (Unseal ⟨"prod", 5, 3, false, true⟩
        ⟨[], fun _ => none, fun _ => none, none⟩
        (fun _ _ => .ok ⟨true, 1⟩) 10).2 = 0 := by
  exact unseal_get_failure_stops ⟨"prod", 5, 3, false, true⟩
    ⟨[], fun _ => none, fun _ => none, none⟩
    (fun _ _ => .ok ⟨true, 1⟩) (fun _ => "") 0 10 (by omega)
    (fun j hj => absurd hj (Nat.not_lt_zero j))
    (fun j hj => absurd hj (Nat.not_lt_zero j))
    (fun v h => by simp [Store.get, lookupEntry] at h)

/-! ### C2: the key-naming contract -/

/-- The unseal-share key name as the spec words it: `{KeyPrefix}-unseal-{index}`
with a decimal index, a function of the prefix and the index alone. -/
def specShareKeyName (p : String) (i : Nat) : String :=
  p ++ "-unseal-" ++ Nat.repr i

/-- The root-credential key name as the spec words it: `{KeyPrefix}-root`. -/
def specRootKeyName (p : String) : String :=
  p ++ "-root"

/-- The probe key name as the spec words it: `{KeyPrefix}-test`. -/
def specTestKeyName (p : String) : String :=
  p ++ "-test"

/-- C2: key derivation is a pure function of `KeyPrefix` and the index — it
reads nothing else of the configuration — and produces exactly the persisted
names `{KeyPrefix}-unseal-{i}` (decimal), `{KeyPrefix}-root`, and
`{KeyPrefix}-test`; e.g. prefix `vault` and index 12 give `vault-unseal-12`. -/
theorem key_naming_contract (cfg : VaultOptions) (i : Nat) :
    unsealKeyForID cfg i = specShareKeyName cfg.KeyPrefix i ∧
    rootTokenKey cfg = specRootKeyName cfg.KeyPrefix ∧
    testKey cfg = specTestKeyName cfg.KeyPrefix ∧
    unsealKeyForID ⟨"vault", 5, 3, false, false⟩ 12 = "vault-unseal-12" :=
  ⟨rfl, rfl, rfl, rfl⟩

/-! ### Keystore-level lemmas for the `Init` claims -/

theorem lookupEntry_setEntry (l : List (String × String)) (k v key : String) :
    lookupEntry (setEntry l k v) key
      = if k = key then some v else lookupEntry l key := by
  induction l with
  | nil => rfl
  | cons hd tl ih =>
    obtain ⟨k0, v0⟩ := hd
    by_cases h0 : k0 = k <;> by_cases h1 : k = key
    · subst h0; subst h1; simp [setEntry, lookupEntry]
    · subst h0; simp [setEntry, lookupEntry, h1]
    · subst h1
      simp [setEntry, lookupEntry, h0, ih]
    · simp [setEntry, lookupEntry, h0, h1, ih]

theorem keyStoreNotFoundB_iff (s : Store) (key : String) :
    keyStoreNotFoundB s key = true ↔ s.get key = .notFound := by
  unfold keyStoreNotFoundB
  cases h : s.get key <;> simp [h]

theorem get_notFound_inv (s : Store) (key : String)
    (h : s.get key = .notFound) :
    s.getErr key = none ∧ lookupEntry s.entries key = none := by
  unfold Store.get at h
  cases hg : s.getErr key with
  | some m => rw [hg] at h; exact absurd h (by simp)
  | none =>
    rw [hg] at h
    cases hl : lookupEntry s.entries key with
    | some v => rw [hl] at h; exact absurd h (by simp)
    | none => exact ⟨rfl, rfl⟩

theorem keyStoreSet_ok_inv (cfg : VaultOptions) (s : Store) (key val : String)
    (s' : Store) (ev : List Event)
    (h : keyStoreSet cfg s key val = (.ok s', ev)) :
    s'.entries = setEntry s.entries key val ∧
    s'.getErr = s.getErr ∧ s'.setErr = s.setErr ∧ s'.testErr = s.testErr ∧
    (ev = [Event.set key val] ∨ ev = [Event.get key, Event.set key val]) := by
  unfold keyStoreSet at h
  split at h
  · rw [Prod.mk.injEq] at h
    obtain ⟨h1, h2⟩ := h
    unfold Store.doSet at h1
    split at h1
    · exact absurd h1 (by simp)
    · injection h1 with h1
      subst h1
      exact ⟨rfl, rfl, rfl, rfl, Or.inl h2.symm⟩
  · split at h
    · rw [Prod.mk.injEq] at h
      obtain ⟨h1, h2⟩ := h
      unfold Store.doSet at h1
      split at h1
      · exact absurd h1 (by simp)
      · injection h1 with h1
        subst h1
        exact ⟨rfl, rfl, rfl, rfl, Or.inr h2.symm⟩
    · rw [Prod.mk.injEq] at h
      exact absurd h.1 (by simp)

theorem keyStoreSet_ok_guard (cfg : VaultOptions) (s : Store) (key val : String)
    (s' : Store) (ev : List Event) (hov : cfg.OverwriteExisting = false)
    (h : keyStoreSet cfg s key val = (.ok s', ev)) :
    s.getErr key = none ∧ lookupEntry s.entries key = none ∧
    ev = [Event.get key, Event.set key val] := by
  unfold keyStoreSet at h
  rw [hov] at h
  simp only [Bool.false_eq_true, if_false] at h
  split at h
  · rename_i hnf
    rw [Prod.mk.injEq] at h
    obtain ⟨hnf1, hnf2⟩ := get_notFound_inv s key ((keyStoreNotFoundB_iff s key).mp hnf)
    exact ⟨hnf1, hnf2, h.2.symm⟩
  · rw [Prod.mk.injEq] at h
    exact absurd h.1 (by simp)

theorem keyStoreSet_set_events (cfg : VaultOptions) (s : Store) (key val : String)
    (r : Except String Store) (ev : List Event)
    (h : keyStoreSet cfg s key val = (r, ev)) :
    ∀ k v, Event.set k v ∈ ev → k = key ∧ v = val := by
  unfold keyStoreSet at h
  split at h
  · rw [Prod.mk.injEq] at h
    rw [← h.2]
    intro k v hm
    simp only [List.mem_singleton] at hm
    cases hm
    exact ⟨rfl, rfl⟩
  · split at h <;> rw [Prod.mk.injEq] at h <;> rw [← h.2] <;> intro k v hm
    · simp only [List.mem_cons, List.mem_singleton] at hm
      rcases hm with hm | hm | hm
      · exact absurd hm (by simp)
      · cases hm; exact ⟨rfl, rfl⟩
      · cases hm
    · simp only [List.mem_singleton] at hm
      cases hm

theorem keyStoreSet_ok_set_mem (cfg : VaultOptions) (s : Store) (key val : String)
    (s' : Store) (ev : List Event)
    (h : keyStoreSet cfg s key val = (.ok s', ev)) :
    Event.set key val ∈ ev := by
  rcases (keyStoreSet_ok_inv cfg s key val s' ev h).2.2.2.2 with h2 | h2 <;>
    rw [h2] <;> simp

theorem storeShares_preserve (cfg : VaultOptions) :
    ∀ (keys : List String) (s : Store) (i : Nat) (key : String),
      (∀ j, j < keys.length → key ≠ unsealKeyForID cfg (i + j)) →
      lookupEntry (storeShares cfg s i keys).2.1.entries key
        = lookupEntry s.entries key := by
  intro keys
  induction keys with
  | nil => intro s i key _; rfl
  | cons k ks ih =>
    intro s i key hkey
    cases hks : keyStoreSet cfg s (unsealKeyForID cfg i) k with
    | mk r ev0 =>
      cases r with
      | ok s1 =>
        have hinv := keyStoreSet_ok_inv cfg s (unsealKeyForID cfg i) k s1 ev0 hks
        simp only [storeShares, hks]
        rw [ih s1 (i + 1) key (fun j hj => by
          have hh := hkey (j + 1) (by simp only [List.length_cons]; omega)
          rwa [show i + (j + 1) = i + 1 + j by omega] at hh)]
        rw [hinv.1, lookupEntry_setEntry, if_neg]
        intro hc
        exact hkey 0 (by simp only [List.length_cons]; omega) hc.symm
      | error m =>
        simp only [storeShares, hks]

theorem storeShares_ok_lookup (cfg : VaultOptions) :
    ∀ (keys : List String) (s : Store) (i : Nat) (s' : Store) (ev : List Event),
      storeShares cfg s i keys = (none, s', ev) →
      ∀ j, j < keys.length →
        lookupEntry s'.entries (unsealKeyForID cfg (i + j)) = keys[j]? := by
  intro keys
  induction keys with
  | nil => intro s i s' ev _ j hj; simp at hj
  | cons k ks ih =>
    intro s i s' ev h j hj
    cases hks : keyStoreSet cfg s (unsealKeyForID cfg i) k with
    | mk r ev0 =>
      cases r with
      | error m =>
        simp only [storeShares, hks, Prod.mk.injEq] at h
        exact absurd h.1 (by simp)
      | ok s1 =>
        cases hrec : storeShares cfg s1 (i + 1) ks with
        | mk r1 rest =>
          cases rest with
          | mk s2 ev2 =>
            simp only [storeShares, hks, hrec, Prod.mk.injEq] at h
            obtain ⟨h1, h2, _⟩ := h
            subst h1
            subst h2
            have hinv := keyStoreSet_ok_inv cfg s (unsealKeyForID cfg i) k s1 ev0 hks
            cases j with
            | zero =>
              have hpres := storeShares_preserve cfg ks s1 (i + 1)
                (unsealKeyForID cfg i) (fun j hj => by
                  intro hc
                  have := unsealKeyForID_inj cfg hc
                  omega)
              rw [hrec] at hpres
              simp only [Nat.add_zero]
              rw [hpres, hinv.1, lookupEntry_setEntry, if_pos rfl]
              simp
            | succ j' =>
              have hlt : j' < ks.length := by
                simp only [List.length_cons] at hj
                omega
              have := ih s1 (i + 1) s2 ev2 hrec j' hlt
              rw [show i + 1 + j' = i + (j' + 1) by omega] at this
              rw [this]
              simp

theorem storeShares_fail_lookup (cfg : VaultOptions) :
    ∀ (keys : List String) (s : Store) (i j : Nat) (s' : Store) (ev : List Event),
      storeShares cfg s i keys = (some j, s', ev) →
      i ≤ j ∧ j < i + keys.length ∧
      ∀ n, i ≤ n → n < j →
        lookupEntry s'.entries (unsealKeyForID cfg n) = keys[n - i]? := by
  intro keys
  induction keys with
  | nil =>
    intro s i j s' ev h
    simp only [storeShares, Prod.mk.injEq] at h
    exact absurd h.1 (by simp)
  | cons k ks ih =>
    intro s i j s' ev h
    cases hks : keyStoreSet cfg s (unsealKeyForID cfg i) k with
    | mk r ev0 =>
      cases r with
      | error m =>
        simp only [storeShares, hks, Prod.mk.injEq] at h
        obtain ⟨h1, h2, _⟩ := h
        injection h1 with h1
        refine ⟨by omega, by simp only [List.length_cons]; omega, ?_⟩
        intro n hn1 hn2
        omega
      | ok s1 =>
        cases hrec : storeShares cfg s1 (i + 1) ks with
        | mk r1 rest =>
          cases rest with
          | mk s2 ev2 =>
            simp only [storeShares, hks, hrec, Prod.mk.injEq] at h
            obtain ⟨h1, h2, _⟩ := h
            cases r1 with
            | none => exact absurd h1 (by simp)
            | some j1 =>
              injection h1 with h1
              obtain ⟨hb1, hb2, hlook⟩ := ih s1 (i + 1) j1 s2 ev2 hrec
              have hinv := keyStoreSet_ok_inv cfg s (unsealKeyForID cfg i) k s1 ev0 hks
              subst h1
              subst h2
              refine ⟨by omega, by simp only [List.length_cons]; omega, ?_⟩
              intro n hn1 hn2
              rcases Nat.eq_or_lt_of_le hn1 with hn | hn
              · rw [← hn]
                have hpres := storeShares_preserve cfg ks s1 (i + 1)
                  (unsealKeyForID cfg i) (fun j2 hj2 => by
                    intro hc
                    have := unsealKeyForID_inj cfg hc
                    omega)
                rw [hrec] at hpres
                simp only [Nat.sub_self]
                rw [hpres, hinv.1, lookupEntry_setEntry, if_pos rfl]
                simp
              · have hl := hlook n (by omega) hn2
                rw [hl]
                have harith : n - i = (n - (i + 1)) + 1 := by omega
                rw [harith]
                simp

theorem storeShares_set_events (cfg : VaultOptions) :
    ∀ (keys : List String) (s : Store) (i : Nat) (k2 v : String),
      Event.set k2 v ∈ (storeShares cfg s i keys).2.2 →
      ∃ j, j < keys.length ∧ k2 = unsealKeyForID cfg (i + j) ∧ keys[j]? = some v := by
  intro keys
  induction keys with
  | nil => intro s i k2 v h; simp [storeShares] at h
  | cons k ks ih =>
    intro s i k2 v h
    cases hks : keyStoreSet cfg s (unsealKeyForID cfg i) k with
    | mk r ev0 =>
      cases r with
      | error m =>
        simp only [storeShares, hks] at h
        obtain ⟨he1, he2⟩ :=
          keyStoreSet_set_events cfg s (unsealKeyForID cfg i) k (.error m) ev0 hks k2 v h
        exact ⟨0, by simp, by rw [he1, Nat.add_zero], by rw [he2]; simp⟩
      | ok s1 =>
        simp only [storeShares, hks, List.mem_append] at h
        rcases h with h | h
        · obtain ⟨he1, he2⟩ :=
            keyStoreSet_set_events cfg s (unsealKeyForID cfg i) k (.ok s1) ev0 hks k2 v h
          exact ⟨0, by simp, by rw [he1, Nat.add_zero], by rw [he2]; simp⟩
        · obtain ⟨j, hj1, hj2, hj3⟩ := ih s1 (i + 1) k2 v h
          refine ⟨j + 1, by simp only [List.length_cons]; omega, ?_, by simpa using hj3⟩
          rw [hj2, show i + 1 + j = i + (j + 1) by omega]

theorem storeShares_ok_set_mem (cfg : VaultOptions) :
    ∀ (keys : List String) (s : Store) (i : Nat) (s' : Store) (ev : List Event),
      storeShares cfg s i keys = (none, s', ev) →
      ∀ j, j < keys.length →
        ∃ v, keys[j]? = some v ∧ Event.set (unsealKeyForID cfg (i + j)) v ∈ ev := by
  intro keys
  induction keys with
  | nil => intro s i s' ev _ j hj; simp at hj
  | cons k ks ih =>
    intro s i s' ev h j hj
    cases hks : keyStoreSet cfg s (unsealKeyForID cfg i) k with
    | mk r ev0 =>
      cases r with
      | error m =>
        simp only [storeShares, hks, Prod.mk.injEq] at h
        exact absurd h.1 (by simp)
      | ok s1 =>
        cases hrec : storeShares cfg s1 (i + 1) ks with
        | mk r1 rest =>
          cases rest with
          | mk s2 ev2 =>
            simp only [storeShares, hks, hrec, Prod.mk.injEq] at h
            obtain ⟨h1, h2, h3⟩ := h
            subst h1
            subst h2
            cases j with
            | zero =>
              refine ⟨k, by simp, ?_⟩
              rw [← h3, Nat.add_zero]
              exact List.mem_append_left ev2
                (keyStoreSet_ok_set_mem cfg s (unsealKeyForID cfg i) k s1 ev0 hks)
            | succ j' =>
              have hlt : j' < ks.length := by
                simp only [List.length_cons] at hj
                omega
              obtain ⟨v, hv1, hv2⟩ := ih s1 (i + 1) s2 ev2 hrec j' hlt
              refine ⟨v, by simpa using hv1, ?_⟩
              rw [← h3, show i + (j' + 1) = i + 1 + j' by omega]
              exact List.mem_append_right ev0 hv2

theorem checkKeys_events_gets (s : Store) :
    ∀ keys, ∀ e ∈ (checkKeys s keys).2, ∃ k, e = Event.get k := by
  intro keys
  induction keys with
  | nil => intro e he; simp [checkKeys] at he
  | cons k ks ih =>
    intro e he
    cases hb : keyStoreNotFoundB s k with
    | true =>
      simp only [checkKeys, hb, if_true, List.mem_cons] at he
      rcases he with he | he
      · exact ⟨k, he⟩
      · exact ih e he
    | false =>
      simp [checkKeys, hb] at he
      exact ⟨k, he⟩

theorem checkKeys_none_iff (s : Store) :
    ∀ keys, (checkKeys s keys).1 = none ↔ ∀ k ∈ keys, keyStoreNotFoundB s k = true := by
  intro keys
  induction keys with
  | nil => simp [checkKeys]
  | cons k ks ih =>
    cases hb : keyStoreNotFoundB s k with
    | true =>
      simp only [checkKeys, hb, if_true]
      constructor
      · intro h k2 hk2
        rcases List.mem_cons.mp hk2 with h2 | h2
        · rw [h2]; exact hb
        · exact (ih.mp h) k2 h2
      · intro h
        exact ih.mpr (fun k2 hk2 => h k2 (List.mem_cons_of_mem k hk2))
    | false =>
      simp only [checkKeys, hb]
      constructor
      · intro h; exact absurd h (by simp)
      · intro h
        exact absurd (h k (List.mem_cons_self k ks)) (by simp [hb])

theorem checkKeys_some_inv (s : Store) :
    ∀ keys k, (checkKeys s keys).1 = some k →
      k ∈ keys ∧ keyStoreNotFoundB s k = false := by
  intro keys
  induction keys with
  | nil => intro k h; exact absurd h (by simp [checkKeys])
  | cons k0 ks ih =>
    intro k h
    cases hb : keyStoreNotFoundB s k0 with
    | true =>
      simp only [checkKeys, hb, if_true] at h
      obtain ⟨h1, h2⟩ := ih k h
      exact ⟨List.mem_cons_of_mem k0 h1, h2⟩
    | false =>
      simp only [checkKeys, hb] at h
      have h' : k0 = k := by
        by_contra hc
        simp [hc] at h
      rw [← h']
      exact ⟨List.mem_cons_self k0 ks, hb⟩

theorem checkKeys_all_events (s : Store) :
    ∀ keys, (∀ k ∈ keys, keyStoreNotFoundB s k = true) →
      (checkKeys s keys).2 = keys.map Event.get := by
  intro keys
  induction keys with
  | nil => intro _; rfl
  | cons k ks ih =>
    intro h
    have hb : keyStoreNotFoundB s k = true := h k (List.mem_cons_self k ks)
    simp only [checkKeys, hb, if_true, List.map_cons]
    rw [ih (fun k2 hk2 => h k2 (List.mem_cons_of_mem k hk2))]

/-! ### Unfolding lemmas for `Init` -/

theorem Init_testFailed_eq (cfg : VaultOptions)
    (vinit : Nat → Nat → Except String InitResponse) (s : Store) (m : String)
    (ht : s.testErr = some m) :
    Init cfg vinit s = (.testFailed m, s, [.probe (testKey cfg)]) := by
  unfold Init
  rw [ht]

theorem Init_preexisting_eq (cfg : VaultOptions)
    (vinit : Nat → Nat → Except String InitResponse) (s : Store) (k : String)
    (hov : cfg.OverwriteExisting = false) (ht : s.testErr = none)
    (hk : (checkKeys s (initPrecheckKeys cfg)).1 = some k) :
    Init cfg vinit s
      = (.preexistingKey k, s,
          Event.probe (testKey cfg) :: (checkKeys s (initPrecheckKeys cfg)).2) := by
  unfold Init
  rw [ht, hov]
  simp only [Bool.false_eq_true, if_false]
  cases hp : checkKeys s (initPrecheckKeys cfg) with
  | mk o ev =>
    rw [hp] at hk
    simp only at hk
    rw [hk]

theorem Init_run (cfg : VaultOptions)
    (vinit : Nat → Nat → Except String InitResponse) (s : Store)
    (resp : InitResponse) (evpre : List Event)
    (ht : s.testErr = none)
    (hpre : (if cfg.OverwriteExisting then ((none, []) : Option String × List Event)
             else checkKeys s (initPrecheckKeys cfg)) = (none, evpre))
    (hresp : vinit cfg.SecretShares cfg.SecretThreshold = .ok resp) :
    Init cfg vinit s =
      (match storeShares cfg s 0 resp.Keys with
       | (some i, s1, ev1) =>
         (InitOutcome.storeShareFailed i, s1,
           Event.probe (testKey cfg) :: evpre
             ++ [Event.vaultInit cfg.SecretShares cfg.SecretThreshold] ++ ev1)
       | (none, s1, ev1) =>
         if cfg.StoreRootToken then
           match keyStoreSet cfg s1 (rootTokenKey cfg) resp.RootToken with
           | (.ok s2, ev2) =>
             (InitOutcome.ok, s2,
               Event.probe (testKey cfg) :: evpre
                 ++ [Event.vaultInit cfg.SecretShares cfg.SecretThreshold] ++ ev1 ++ ev2)
           | (.error _, ev2) =>
             (InitOutcome.storeRootFailed, s1,
               Event.probe (testKey cfg) :: evpre
                 ++ [Event.vaultInit cfg.SecretShares cfg.SecretThreshold] ++ ev1 ++ ev2)
         else
           (InitOutcome.ok, s1,
             Event.probe (testKey cfg) :: evpre
               ++ [Event.vaultInit cfg.SecretShares cfg.SecretThreshold] ++ ev1)) := by
  unfold Init
  rw [ht, hpre, hresp]

theorem Init_vaultInitFailed_eq (cfg : VaultOptions)
    (vinit : Nat → Nat → Except String InitResponse) (s : Store) (m : String)
    (evpre : List Event) (ht : s.testErr = none)
    (hpre : (if cfg.OverwriteExisting then ((none, []) : Option String × List Event)
             else checkKeys s (initPrecheckKeys cfg)) = (none, evpre))
    (hv : vinit cfg.SecretShares cfg.SecretThreshold = .error m) :
    Init cfg vinit s = (.vaultInitFailed m, s,
      Event.probe (testKey cfg) :: evpre
        ++ [Event.vaultInit cfg.SecretShares cfg.SecretThreshold]) := by
  unfold Init
  rw [ht, hpre, hv]

/-- C6: with `OverwriteExisting = false` and the root key already present in
the keystore (its `Get` not reporting not-found), `Init` fails without ever
issuing the vault initialization request; when the keystore probe passes,
the failure is the preexisting-key error naming the root key. -/
theorem init_preexisting_root_blocks (cfg : VaultOptions)
    (vinit : Nat → Nat → Except String InitResponse) (s : Store)
    (hov : cfg.OverwriteExisting = false)
    (hroot : s.get (rootTokenKey cfg) ≠ .notFound) :
    (Init cfg vinit s).1 ≠ .ok ∧
    (∀ a b, Event.vaultInit a b ∉ (Init cfg vinit s).2.2) ∧
    (s.testErr = none → (Init cfg vinit s).1 = .preexistingKey (rootTokenKey cfg)) := by
  have hb : keyStoreNotFoundB s (rootTokenKey cfg) = false := by
    cases hbb : keyStoreNotFoundB s (rootTokenKey cfg) with
    | false => rfl
    | true => exact absurd ((keyStoreNotFoundB_iff s _).mp hbb) hroot
  cases ht : s.testErr with
  | some m =>
    rw [Init_testFailed_eq cfg vinit s m ht]
    refine ⟨by simp, by simp, ?_⟩
    intro h
    exact absurd h (by simp)
  | none =>
    have hck : (checkKeys s (initPrecheckKeys cfg)).1 = some (rootTokenKey cfg) := by
      unfold initPrecheckKeys
      simp [checkKeys, hb]
    rw [Init_preexisting_eq cfg vinit s (rootTokenKey cfg) hov ht hck]
    refine ⟨by simp, ?_, fun _ => rfl⟩
    intro a b hmem
    simp only [List.mem_cons] at hmem
    rcases hmem with h | h
    · exact absurd h (by simp)
    · obtain ⟨k2, hk2⟩ := checkKeys_events_gets s (initPrecheckKeys cfg) _ h
      exact absurd hk2 (by simp)

/-- Witness for C6: keystore already holds `prod-root`; `Init` with
overwrite protection fails with the preexisting-key error and never issues
the vault initialization request. -/
theorem init_preexisting_root_blocks_witness :
    (Init ⟨"prod", 5, 3, false, true⟩ (fun _ _ => .ok ⟨["a"], "R"⟩)
        ⟨[("prod-root", "X")], fun _ => none, fun _ => none, none⟩).1 ≠ .ok ∧
    (∀ a b, Event.vaultInit a b ∉
      (Init ⟨"prod", 5, 3, false, true⟩ (fun _ _ => .ok ⟨["a"], "R"⟩)
        ⟨[("prod-root", "X")], fun _ => none, fun _ => none, none⟩).2.2) ∧
    ((⟨[("prod-root", "X")], fun _ => none, fun _ => none, none⟩ : Store).testErr = none →
      (Init ⟨"prod", 5, 3, false, true⟩ (fun _ _ => .ok ⟨["a"], "R"⟩)
        ⟨[("prod-root", "X")], fun _ => none, fun _ => none, none⟩).1
        = .preexistingKey (rootTokenKey ⟨"prod", 5, 3, false, true⟩)) :=
  init_preexisting_root_blocks ⟨"prod", 5, 3, false, true⟩
    (fun _ _ => .ok ⟨["a"], "R"⟩)
    ⟨[("prod-root", "X")], fun _ => none, fun _ => none, none⟩ rfl (by decide)

theorem Init_no_preexisting (cfg : VaultOptions)
    (vinit : Nat → Nat → Except String InitResponse) (s : Store)
    (evpre : List Event) (ht : s.testErr = none)
    (hpre : (if cfg.OverwriteExisting then ((none, []) : Option String × List Event)
             else checkKeys s (initPrecheckKeys cfg)) = (none, evpre)) :
    ∀ k, (Init cfg vinit s).1 ≠ .preexistingKey k := by
  intro k
  cases hv : vinit cfg.SecretShares cfg.SecretThreshold with
  | error m =>
    rw [Init_vaultInitFailed_eq cfg vinit s m evpre ht hpre hv]
    simp
  | ok resp =>
    rw [Init_run cfg vinit s resp evpre ht hpre hv]
    cases hss : storeShares cfg s 0 resp.Keys with
    | mk r rest =>
      cases rest with
      | mk s1 ev1 =>
        cases r with
        | some i => simp
        | none =>
          cases hrt : cfg.StoreRootToken with
          | false => simp [hrt]
          | true =>
            cases hkr : keyStoreSet cfg s1 (rootTokenKey cfg) resp.RootToken with
            | mk rr ev2 =>
              cases rr with
              | ok s2 => simp [hrt, hkr]
              | error m2 => simp [hrt, hkr]

/-- C7: with `OverwriteExisting = false` and a passing keystore probe, the
pre-initialization existence check probes exactly the root key followed by
the unseal keys for indices 0 through `SecretShares` inclusive
(`SecretShares + 2` probes in all — one unseal key more than `Init` ever
writes), and `Init` aborts with the preexisting-key error precisely when
some probed key's `Get` does not report not-found. -/
theorem init_precheck_exact (cfg : VaultOptions)
    (vinit : Nat → Nat → Except String InitResponse) (s : Store)
    (hov : cfg.OverwriteExisting = false) (ht : s.testErr = none) :
    initPrecheckKeys cfg
      = rootTokenKey cfg
          :: (List.range (cfg.SecretShares + 1)).map (unsealKeyForID cfg) ∧
    (initPrecheckKeys cfg).length = cfg.SecretShares + 2 ∧
    ((∀ k ∈ initPrecheckKeys cfg, s.get k = .notFound) →
      (checkKeys s (initPrecheckKeys cfg)).2 = (initPrecheckKeys cfg).map Event.get ∧
      ∀ k, (Init cfg vinit s).1 ≠ .preexistingKey k) ∧
    ((∃ k ∈ initPrecheckKeys cfg, s.get k ≠ .notFound) →
      ∃ k ∈ initPrecheckKeys cfg, s.get k ≠ .notFound ∧
        (Init cfg vinit s).1 = .preexistingKey k) := by
  refine ⟨rfl, ?_, ?_, ?_⟩
  · simp only [initPrecheckKeys, List.length_cons, List.length_map, List.length_range]
  · intro hall
    have hallb : ∀ k ∈ initPrecheckKeys cfg, keyStoreNotFoundB s k = true :=
      fun k hk => (keyStoreNotFoundB_iff s k).mpr (hall k hk)
    refine ⟨checkKeys_all_events s (initPrecheckKeys cfg) hallb, ?_⟩
    have hnone : (checkKeys s (initPrecheckKeys cfg)).1 = none :=
      (checkKeys_none_iff s (initPrecheckKeys cfg)).mpr hallb
    have hpre : (if cfg.OverwriteExisting then ((none, []) : Option String × List Event)
        else checkKeys s (initPrecheckKeys cfg))
          = (none, (checkKeys s (initPrecheckKeys cfg)).2) := by
      rw [hov]
      simp only [Bool.false_eq_true, if_false]
      rw [← hnone]
    exact Init_no_preexisting cfg vinit s (checkKeys s (initPrecheckKeys cfg)).2 ht hpre
  · intro hbad
    cases hck : (checkKeys s (initPrecheckKeys cfg)).1 with
    | none =>
      obtain ⟨k, hk1, hk2⟩ := hbad
      have := (checkKeys_none_iff s (initPrecheckKeys cfg)).mp hck k hk1
      exact absurd ((keyStoreNotFoundB_iff s k).mp this) hk2
    | some k0 =>
      obtain ⟨hmem, hb⟩ := checkKeys_some_inv s (initPrecheckKeys cfg) k0 hck
      refine ⟨k0, hmem, ?_, ?_⟩
      · intro hc
        rw [(keyStoreNotFoundB_iff s k0).mpr hc] at hb
        exact absurd hb (by simp)
      · rw [Init_preexisting_eq cfg vinit s k0 hov ht hck]

/-- Witness for C7: `SecretShares = 2`, and the keystore already holds
`prod-unseal-2` — the extra index the off-by-one precheck probes even
though `Init` only ever writes indices 0 and 1 — so `Init` aborts. -/
theorem init_precheck_exact_witness :
    initPrecheckKeys ⟨"prod", 2, 2, false, true⟩
      = rootTokenKey ⟨"prod", 2, 2, false, true⟩
          :: (List.range (2 + 1)).map (unsealKeyForID ⟨"prod", 2, 2, false, true⟩) ∧
    (initPrecheckKeys ⟨"prod", 2, 2, false, true⟩).length = 2 + 2 ∧
    ((∀ k ∈ initPrecheckKeys ⟨"prod", 2, 2, false, true⟩,
        Store.get ⟨[("prod-unseal-2", "x")], fun _ => none, fun _ => none, none⟩ k
          = .notFound) →
      (checkKeys ⟨[("prod-unseal-2", "x")], fun _ => none, fun _ => none, none⟩
          (initPrecheckKeys ⟨"prod", 2, 2, false, true⟩)).2
        = (initPrecheckKeys ⟨"prod", 2, 2, false, true⟩).map Event.get ∧
      ∀ k, (Init ⟨"prod", 2, 2, false, true⟩ (fun _ _ => .ok ⟨["a", "b"], "R"⟩)
        ⟨[("prod-unseal-2", "x")], fun _ => none, fun _ => none, none⟩).1
          ≠ .preexistingKey k) ∧
    ((∃ k ∈ initPrecheckKeys ⟨"prod", 2, 2, false, true⟩,
        Store.get ⟨[("prod-unseal-2", "x")], fun _ => none, fun _ => none, none⟩ k
          ≠ .notFound) →
      ∃ k ∈ initPrecheckKeys ⟨"prod", 2, 2, false, true⟩,
        Store.get ⟨[("prod-unseal-2", "x")], fun _ => none, fun _ => none, none⟩ k
          ≠ .notFound ∧
        (Init ⟨"prod", 2, 2, false, true⟩ (fun _ _ => .ok ⟨["a", "b"], "R"⟩)
          ⟨[("prod-unseal-2", "x")], fun _ => none, fun _ => none, none⟩).1
            = .preexistingKey k) :=
  init_precheck_exact ⟨"prod", 2, 2, false, true⟩ (fun _ _ => .ok ⟨["a", "b"], "R"⟩)
    ⟨[("prod-unseal-2", "x")], fun _ => none, fun _ => none, none⟩ rfl rfl

theorem init_core_no_root_write (cfg : VaultOptions)
    (vinit : Nat → Nat → Except String InitResponse) (s : Store)
    (evpre : List Event) (v : String)
    (hrt : cfg.StoreRootToken = false) (ht : s.testErr = none)
    (hpre : (if cfg.OverwriteExisting then ((none, []) : Option String × List Event)
             else checkKeys s (initPrecheckKeys cfg)) = (none, evpre))
    (hpget : ∀ e ∈ evpre, ∃ k2, e = Event.get k2) :
    Event.set (rootTokenKey cfg) v ∉ (Init cfg vinit s).2.2 := by
  intro hmem
  cases hv : vinit cfg.SecretShares cfg.SecretThreshold with
  | error m =>
    rw [Init_vaultInitFailed_eq cfg vinit s m evpre ht hpre hv] at hmem
    simp only [List.mem_cons, List.mem_append, List.mem_singleton,
      List.not_mem_nil, or_false] at hmem
    rcases hmem with (h | h) | h
    · exact absurd h (by simp)
    · obtain ⟨k2, hk2⟩ := hpget _ h
      exact absurd hk2 (by simp)
    · exact absurd h (by simp)
  | ok resp =>
    cases hss : storeShares cfg s 0 resp.Keys with
    | mk r rest =>
      cases rest with
      | mk s1 ev1 =>
        have hEq := Init_run cfg vinit s resp evpre ht hpre hv
        rw [hss] at hEq
        have hev1 : ∀ k2 v2, Event.set k2 v2 ∈ ev1 →
            ∃ j, j < resp.Keys.length ∧ k2 = unsealKeyForID cfg (0 + j) := by
          intro k2 v2 hm
          obtain ⟨j, hj1, hj2, _⟩ := storeShares_set_events cfg resp.Keys s 0 k2 v2
            (by rw [hss]; exact hm)
          exact ⟨j, hj1, hj2⟩
        have hroot : ∀ k2 v2, Event.set k2 v2 ∈ ev1 →
            Event.set (rootTokenKey cfg) v ≠ Event.set k2 v2 := by
          intro k2 v2 hm hc
          obtain ⟨j, _, hj2⟩ := hev1 k2 v2 hm
          injection hc with h1 _
          rw [hj2] at h1
          exact unsealKey_ne_rootKey cfg (0 + j) h1.symm
        cases r with
        | some i =>
          rw [hEq] at hmem
          simp only [List.mem_cons, List.mem_append, List.mem_singleton,
            List.not_mem_nil, or_false] at hmem
          rcases hmem with ((h | h) | h) | h
          · exact absurd h (by simp)
          · obtain ⟨k2, hk2⟩ := hpget _ h
            exact absurd hk2 (by simp)
          · exact absurd h (by simp)
          · exact hroot _ _ h rfl
        | none =>
          rw [hrt] at hEq
          simp only [Bool.false_eq_true, if_false] at hEq
          rw [hEq] at hmem
          simp only [List.mem_cons, List.mem_append, List.mem_singleton,
            List.not_mem_nil, or_false] at hmem
          rcases hmem with ((h | h) | h) | h
          · exact absurd h (by simp)
          · obtain ⟨k2, hk2⟩ := hpget _ h
            exact absurd hk2 (by simp)
          · exact absurd h (by simp)
          · exact hroot _ _ h rfl

/-- C9: `Init` with `StoreRootToken = false` never performs a keystore write
to the root key `{prefix}-root`, for every value of `OverwriteExisting` and
every outcome of the other steps (the root key is written only when
`StoreRootToken` is true). -/
theorem init_no_root_write (cfg : VaultOptions)
    (vinit : Nat → Nat → Except String InitResponse) (s : Store)
    (hrt : cfg.StoreRootToken = false) :
    ∀ v, Event.set (rootTokenKey cfg) v ∉ (Init cfg vinit s).2.2 := by
  intro v
  cases ht : s.testErr with
  | some m =>
    rw [Init_testFailed_eq cfg vinit s m ht]
    simp
  | none =>
    by_cases hov : cfg.OverwriteExisting = true
    · refine init_core_no_root_write cfg vinit s [] v hrt ht ?_ (by simp)
      rw [hov]
      simp
    · have hov' : cfg.OverwriteExisting = false := by
        cases hovv : cfg.OverwriteExisting with
        | false => rfl
        | true => exact absurd hovv hov
      cases hck : (checkKeys s (initPrecheckKeys cfg)).1 with
      | some k =>
        rw [Init_preexisting_eq cfg vinit s k hov' ht hck]
        intro hmem
        simp only [List.mem_cons] at hmem
        rcases hmem with h | h
        · exact absurd h (by simp)
        · obtain ⟨k2, hk2⟩ := checkKeys_events_gets s (initPrecheckKeys cfg) _ h
          exact absurd hk2 (by simp)
      | none =>
        refine init_core_no_root_write cfg vinit s
          (checkKeys s (initPrecheckKeys cfg)).2 v hrt ht ?_ ?_
        · rw [hov']
          simp only [Bool.false_eq_true, if_false]
          rw [← hck]
        · exact fun e he => checkKeys_events_gets s (initPrecheckKeys cfg) e he

/-- Witness for C9: a full successful `Init` run with `StoreRootToken =
false` leaves no write of `prod-root` in the trace. -/
theorem init_no_root_write_witness :
    Event.set "prod-root" "ROOT" ∉
      (Init ⟨"prod", 5, 3, false, false⟩
        (fun _ _ => .ok ⟨["a", "b", "c", "d", "e"], "ROOT"⟩)
        ⟨[], fun _ => none, fun _ => none, none⟩).2.2 :=
  init_no_root_write ⟨"prod", 5, 3, false, false⟩
    (fun _ _ => .ok ⟨["a", "b", "c", "d", "e"], "ROOT"⟩)
    ⟨[], fun _ => none, fun _ => none, none⟩ rfl "ROOT"

/-- C1: after a successful `Init` whose vault response carries
`SecretShares` shares, the keystore holds the i-th share of the init
response at `{prefix}-unseal-{i}` for every `i < SecretShares`, the trace
contains a write of exactly that share under that key, and no unseal key
with an index outside `{0, ..., SecretShares-1}` is ever written. -/
theorem init_stores_shares (cfg : VaultOptions)
    (vinit : Nat → Nat → Except String InitResponse) (s : Store)
    (resp : InitResponse)
    (hresp : vinit cfg.SecretShares cfg.SecretThreshold = .ok resp)
    (hlen : resp.Keys.length = cfg.SecretShares)
    (hok : (Init cfg vinit s).1 = .ok) :
    (∀ j, j < cfg.SecretShares →
      lookupEntry (Init cfg vinit s).2.1.entries (unsealKeyForID cfg j)
        = resp.Keys[j]?) ∧
    (∀ j, j < cfg.SecretShares → ∃ v, resp.Keys[j]? = some v ∧
      Event.set (unsealKeyForID cfg j) v ∈ (Init cfg vinit s).2.2) ∧
    (∀ i v, Event.set (unsealKeyForID cfg i) v ∈ (Init cfg vinit s).2.2 →
      i < cfg.SecretShares) := by
  cases ht : s.testErr with
  | some m =>
    rw [Init_testFailed_eq cfg vinit s m ht] at hok
    exact absurd hok (by simp)
  | none =>
    cases hpair : (if cfg.OverwriteExisting then ((none, []) : Option String × List Event)
        else checkKeys s (initPrecheckKeys cfg)) with
    | mk o evpre =>
      cases o with
      | some k =>
        by_cases hov : cfg.OverwriteExisting = true
        · rw [hov] at hpair
          simp at hpair
        · have hov' : cfg.OverwriteExisting = false := by
            cases hovv : cfg.OverwriteExisting with
            | false => rfl
            | true => exact absurd hovv hov
          rw [hov'] at hpair
          simp only [Bool.false_eq_true, if_false] at hpair
          have hck : (checkKeys s (initPrecheckKeys cfg)).1 = some k := by
            rw [hpair]
          rw [Init_preexisting_eq cfg vinit s k hov' ht hck] at hok
          exact absurd hok (by simp)
      | none =>
        have hpget : ∀ e ∈ evpre, ∃ k2, e = Event.get k2 := by
          by_cases hov : cfg.OverwriteExisting = true
          · rw [hov] at hpair
            simp at hpair
            intro e he
            rw [hpair] at he
            exact absurd he (by simp)
          · have hov' : cfg.OverwriteExisting = false := by
              cases hovv : cfg.OverwriteExisting with
              | false => rfl
              | true => exact absurd hovv hov
            rw [hov'] at hpair
            simp only [Bool.false_eq_true, if_false] at hpair
            intro e he
            refine checkKeys_events_gets s (initPrecheckKeys cfg) e ?_
            rw [hpair]
            exact he
        cases hss : storeShares cfg s 0 resp.Keys with
        | mk r rest =>
          cases rest with
          | mk s1 ev1 =>
            have hEq := Init_run cfg vinit s resp evpre ht hpair hresp
            rw [hss] at hEq
            cases r with
            | some i =>
              rw [hEq] at hok
              simp at hok
            | none =>
              have hlook1 : ∀ j, j < cfg.SecretShares →
                  lookupEntry s1.entries (unsealKeyForID cfg j) = resp.Keys[j]? := by
                intro j hj
                have h0 := storeShares_ok_lookup cfg resp.Keys s 0 s1 ev1 hss j (by omega)
                rwa [Nat.zero_add] at h0
              have hmem1 : ∀ j, j < cfg.SecretShares → ∃ v, resp.Keys[j]? = some v ∧
                  Event.set (unsealKeyForID cfg j) v ∈ ev1 := by
                intro j hj
                obtain ⟨v, hv1, hv2⟩ :=
                  storeShares_ok_set_mem cfg resp.Keys s 0 s1 ev1 hss j (by omega)
                rw [Nat.zero_add] at hv2
                exact ⟨v, hv1, hv2⟩
              have hbound : ∀ i v, Event.set (unsealKeyForID cfg i) v ∈ ev1 →
                  i < cfg.SecretShares := by
                intro i v hm
                obtain ⟨j, hj1, hj2, _⟩ := storeShares_set_events cfg resp.Keys s 0 _ v
                  (by rw [hss]; exact hm)
                rw [Nat.zero_add] at hj2
                have := unsealKeyForID_inj cfg hj2
                omega
              cases hrt : cfg.StoreRootToken with
              | false =>
                rw [hrt] at hEq
                simp only [Bool.false_eq_true, if_false] at hEq
                rw [hEq]
                refine ⟨fun j hj => hlook1 j hj, ?_, ?_⟩
                · intro j hj
                  obtain ⟨v, hv1, hv2⟩ := hmem1 j hj
                  refine ⟨v, hv1, ?_⟩
                  simp only [List.mem_cons, List.mem_append, List.mem_singleton]
                  exact Or.inr hv2
                · intro i v hm
                  simp only [List.mem_cons, List.mem_append, List.mem_singleton,
                    List.not_mem_nil, or_false] at hm
                  rcases hm with ((h | h) | h) | h
                  · exact absurd h (by simp)
                  · obtain ⟨k2, hk2⟩ := hpget _ h
                    exact absurd hk2 (by simp)
                  · exact absurd h (by simp)
                  · exact hbound i v h
              | true =>
                cases hkr : keyStoreSet cfg s1 (rootTokenKey cfg) resp.RootToken with
                | mk rr ev2 =>
                  cases rr with
                  | error m2 =>
                    rw [hrt] at hEq
                    simp only [if_true] at hEq
                    rw [hkr] at hEq
                    rw [hEq] at hok
                    simp at hok
                  | ok s2 =>
                    rw [hrt] at hEq
                    simp only [if_true] at hEq
                    rw [hkr] at hEq
                    rw [hEq]
                    have hinv := keyStoreSet_ok_inv cfg s1 (rootTokenKey cfg)
                      resp.RootToken s2 ev2 hkr
                    have hev2set := keyStoreSet_set_events cfg s1 (rootTokenKey cfg)
                      resp.RootToken (.ok s2) ev2 hkr
                    refine ⟨?_, ?_, ?_⟩
                    · intro j hj
                      show lookupEntry s2.entries (unsealKeyForID cfg j) = resp.Keys[j]?
                      rw [hinv.1, lookupEntry_setEntry,
                        if_neg (fun hc => unsealKey_ne_rootKey cfg j hc.symm)]
                      exact hlook1 j hj
                    · intro j hj
                      obtain ⟨v, hv1, hv2⟩ := hmem1 j hj
                      refine ⟨v, hv1, ?_⟩
                      simp only [List.mem_cons, List.mem_append, List.mem_singleton]
                      exact Or.inl (Or.inr hv2)
                    · intro i v hm
                      simp only [List.mem_cons, List.mem_append, List.mem_singleton,
                        List.not_mem_nil, or_false] at hm
                      rcases hm with (((h | h) | h) | h) | h
                      · exact absurd h (by simp)
                      · obtain ⟨k2, hk2⟩ := hpget _ h
                        exact absurd hk2 (by simp)
                      · exact absurd h (by simp)
                      · exact hbound i v h
                      · obtain ⟨h1, _⟩ := hev2set _ _ h
                        exact absurd h1 (unsealKey_ne_rootKey cfg i)

/-- Witness for C1: a fresh keystore, five shares returned by the vault;
after `Init` succeeds the keystore holds each of them under its derived
key, every index below 5 is written, and no other unseal index appears. -/
theorem init_stores_shares_witness :
    (∀ j, j < (5 : Nat) →
      lookupEntry (Init ⟨"prod", 5, 3, false, true⟩
          (fun _ _ => .ok ⟨["a", "b", "c", "d", "e"], "ROOT"⟩)
          ⟨[], fun _ => none, fun _ => none, none⟩).2.1.entries
          (unsealKeyForID ⟨"prod", 5, 3, false, true⟩ j)
        = (["a", "b", "c", "d", "e"] : List String)[j]?) ∧
    (∀ j, j < (5 : Nat) → ∃ v, (["a", "b", "c", "d", "e"] : List String)[j]? = some v ∧
      Event.set (unsealKeyForID ⟨"prod", 5, 3, false, true⟩ j) v ∈
        (Init ⟨"prod", 5, 3, false, true⟩
          (fun _ _ => .ok ⟨["a", "b", "c", "d", "e"], "ROOT"⟩)
          ⟨[], fun _ => none, fun _ => none, none⟩).2.2) ∧
    (∀ i v, Event.set (unsealKeyForID ⟨"prod", 5, 3, false, true⟩ i) v ∈
        (Init ⟨"prod", 5, 3, false, true⟩
          (fun _ _ => .ok ⟨["a", "b", "c", "d", "e"], "ROOT"⟩)
          ⟨[], fun _ => none, fun _ => none, none⟩).2.2 →
      i < (5 : Nat)) :=
  init_stores_shares ⟨"prod", 5, 3, false, true⟩
    (fun _ _ => .ok ⟨["a", "b", "c", "d", "e"], "ROOT"⟩)
    ⟨[], fun _ => none, fun _ => none, none⟩
    ⟨["a", "b", "c", "d", "e"], "ROOT"⟩ rfl rfl rfl

/-- C8: if the write of the share at index `j` fails, `Init` returns the
share-store error and every share written at an index below `j` is still in
the keystore (no transactional rollback); likewise a failure persisting the
root credential leaves every already-written share in place. -/
theorem init_no_rollback (cfg : VaultOptions)
    (vinit : Nat → Nat → Except String InitResponse) (s : Store)
    (resp : InitResponse)
    (hresp : vinit cfg.SecretShares cfg.SecretThreshold = .ok resp) :
    (∀ j, (Init cfg vinit s).1 = .storeShareFailed j →
      ∀ i, i < j →
        lookupEntry (Init cfg vinit s).2.1.entries (unsealKeyForID cfg i)
          = resp.Keys[i]?) ∧
    ((Init cfg vinit s).1 = .storeRootFailed →
      ∀ i, i < resp.Keys.length →
        lookupEntry (Init cfg vinit s).2.1.entries (unsealKeyForID cfg i)
          = resp.Keys[i]?) := by
  cases ht : s.testErr with
  | some m =>
    rw [Init_testFailed_eq cfg vinit s m ht]
    exact ⟨fun j h => absurd h (by simp), fun h => absurd h (by simp)⟩
  | none =>
    cases hpair : (if cfg.OverwriteExisting then ((none, []) : Option String × List Event)
        else checkKeys s (initPrecheckKeys cfg)) with
    | mk o evpre =>
      cases o with
      | some k =>
        by_cases hov : cfg.OverwriteExisting = true
        · rw [hov] at hpair
          simp at hpair
        · have hov' : cfg.OverwriteExisting = false := by
            cases hovv : cfg.OverwriteExisting with
            | false => rfl
            | true => exact absurd hovv hov
          rw [hov'] at hpair
          simp only [Bool.false_eq_true, if_false] at hpair
          have hck : (checkKeys s (initPrecheckKeys cfg)).1 = some k := by
            rw [hpair]
          rw [Init_preexisting_eq cfg vinit s k hov' ht hck]
          exact ⟨fun j h => absurd h (by simp), fun h => absurd h (by simp)⟩
      | none =>
        cases hss : storeShares cfg s 0 resp.Keys with
        | mk r rest =>
          cases rest with
          | mk s1 ev1 =>
            have hEq := Init_run cfg vinit s resp evpre ht hpair hresp
            rw [hss] at hEq
            cases r with
            | some i =>
              rw [hEq]
              refine ⟨?_, fun h => absurd h (by simp)⟩
              intro j hfail n hn
              have hij : i = j := by simpa using hfail
              obtain ⟨_, _, hlook⟩ :=
                storeShares_fail_lookup cfg resp.Keys s 0 i s1 ev1 hss
              have h0 := hlook n (by omega) (by omega)
              rwa [Nat.sub_zero] at h0
            | none =>
              cases hrt : cfg.StoreRootToken with
              | false =>
                rw [hrt] at hEq
                simp only [Bool.false_eq_true, if_false] at hEq
                rw [hEq]
                exact ⟨fun j h => absurd h (by simp), fun h => absurd h (by simp)⟩
              | true =>
                cases hkr : keyStoreSet cfg s1 (rootTokenKey cfg) resp.RootToken with
                | mk rr ev2 =>
                  cases rr with
                  | ok s2 =>
                    rw [hrt] at hEq
                    simp only [if_true] at hEq
                    rw [hkr] at hEq
                    rw [hEq]
                    exact ⟨fun j h => absurd h (by simp), fun h => absurd h (by simp)⟩
                  | error m2 =>
                    rw [hrt] at hEq
                    simp only [if_true] at hEq
                    rw [hkr] at hEq
                    rw [hEq]
                    refine ⟨fun j h => absurd h (by simp), ?_⟩
                    intro _ n hn
                    have h0 := storeShares_ok_lookup cfg resp.Keys s 0 s1 ev1 hss n hn
                    rwa [Nat.zero_add] at h0

/-- Witness for C8: the backend rejects the write of `prod-unseal-2`; `Init`
fails with the share-store error at index 2 while `prod-unseal-0` and
`prod-unseal-1` keep the shares already written. -/
theorem init_no_rollback_witness :
    (∀ j, (Init ⟨"prod", 5, 3, false, true⟩
        (fun _ _ => .ok ⟨["a", "b", "c", "d", "e"], "ROOT"⟩)
        ⟨[], fun _ => none,
          fun k => if k = "prod-unseal-2" then some "boom" else none, none⟩).1
        = .storeShareFailed j →
      ∀ i, i < j →
        lookupEntry (Init ⟨"prod", 5, 3, false, true⟩
          (fun _ _ => .ok ⟨["a", "b", "c", "d", "e"], "ROOT"⟩)
          ⟨[], fun _ => none,
            fun k => if k = "prod-unseal-2" then some "boom" else none, none⟩).2.1.entries
          (unsealKeyForID ⟨"prod", 5, 3, false, true⟩ i)
          = (["a", "b", "c", "d", "e"] : List String)[i]?) ∧
    ((Init ⟨"prod", 5, 3, false, true⟩
        (fun _ _ => .ok ⟨["a", "b", "c", "d", "e"], "ROOT"⟩)
        ⟨[], fun _ => none,
          fun k => if k = "prod-unseal-2" then some "boom" else none, none⟩).1
        = .storeRootFailed →
      ∀ i, i < (["a", "b", "c", "d", "e"] : List String).length →
        lookupEntry (Init ⟨"prod", 5, 3, false, true⟩
          (fun _ _ => .ok ⟨["a", "b", "c", "d", "e"], "ROOT"⟩)
          ⟨[], fun _ => none,
            fun k => if k = "prod-unseal-2" then some "boom" else none, none⟩).2.1.entries
          (unsealKeyForID ⟨"prod", 5, 3, false, true⟩ i)
          = (["a", "b", "c", "d", "e"] : List String)[i]?) :=
  init_no_rollback ⟨"prod", 5, 3, false, true⟩
    (fun _ _ => .ok ⟨["a", "b", "c", "d", "e"], "ROOT"⟩)
    ⟨[], fun _ => none,
      fun k => if k = "prod-unseal-2" then some "boom" else none, none⟩
    ⟨["a", "b", "c", "d", "e"], "ROOT"⟩ rfl

/-! ### C10: the no-clobber invariant -/

/-- Check of a trace: every keystore write immediately follows a read of
the same key (the guarding `Get` of `keyStoreSet`). -/
def setsGuarded : List Event → Bool
  | [] => true
  | Event.get k :: Event.set k2 _ :: rest => k == k2 && setsGuarded rest
  | Event.set _ _ :: _ => false
  | _ :: rest => setsGuarded rest

theorem setsGuarded_cons_get {l : List Event} (h : setsGuarded l = true)
    (k : String) : setsGuarded (Event.get k :: l) = true := by
  cases l with
  | nil => rfl
  | cons e t =>
    cases e with
    | get k2 => simpa [setsGuarded] using h
    | set k2 v2 => simp [setsGuarded] at h
    | probe k2 => simpa [setsGuarded] using h
    | vaultInit a b => simpa [setsGuarded] using h
    | submit x => simpa [setsGuarded] using h

theorem setsGuarded_cons_probe {l : List Event} (h : setsGuarded l = true)
    (k : String) : setsGuarded (Event.probe k :: l) = true := by
  simpa [setsGuarded] using h

theorem setsGuarded_cons_vaultInit {l : List Event} (h : setsGuarded l = true)
    (a b : Nat) : setsGuarded (Event.vaultInit a b :: l) = true := by
  simpa [setsGuarded] using h

theorem setsGuarded_cons_get_set {l : List Event} (h : setsGuarded l = true)
    (k v : String) : setsGuarded (Event.get k :: Event.set k v :: l) = true := by
  simp [setsGuarded, h]

theorem setsGuarded_gets_append {l rest : List Event}
    (hg : ∀ e ∈ l, ∃ k, e = Event.get k) (h : setsGuarded rest = true) :
    setsGuarded (l ++ rest) = true := by
  induction l with
  | nil => simpa
  | cons e t ih =>
    obtain ⟨k, hk⟩ := hg e (by simp)
    subst hk
    have ht' := ih (fun e2 he2 => hg e2 (by simp [he2]))
    simp only [List.cons_append]
    exact setsGuarded_cons_get ht' k

theorem keyStoreSet_error_events (cfg : VaultOptions) (s : Store)
    (key val m : String) (ev : List Event) (hov : cfg.OverwriteExisting = false)
    (h : keyStoreSet cfg s key val = (.error m, ev)) :
    ev = [Event.get key] ∨ ev = [Event.get key, Event.set key val] := by
  unfold keyStoreSet at h
  rw [hov] at h
  simp only [Bool.false_eq_true, if_false] at h
  split at h
  · rw [Prod.mk.injEq] at h
    exact Or.inr h.2.symm
  · rw [Prod.mk.injEq] at h
    exact Or.inl h.2.symm

theorem storeShares_guarded (cfg : VaultOptions) (hov : cfg.OverwriteExisting = false) :
    ∀ (keys : List String) (s : Store) (i : Nat) (rest : List Event),
      setsGuarded rest = true →
      setsGuarded ((storeShares cfg s i keys).2.2 ++ rest) = true := by
  intro keys
  induction keys with
  | nil => intro s i rest h; simpa [storeShares]
  | cons k ks ih =>
    intro s i rest h
    cases hks : keyStoreSet cfg s (unsealKeyForID cfg i) k with
    | mk r ev0 =>
      cases r with
      | ok s1 =>
        obtain ⟨_, _, hev0⟩ :=
          keyStoreSet_ok_guard cfg s (unsealKeyForID cfg i) k s1 ev0 hov hks
        simp only [storeShares, hks, hev0, List.cons_append, List.append_assoc,
          List.nil_append]
        exact setsGuarded_cons_get_set (ih s1 (i + 1) rest h) _ _
      | error m =>
        rcases keyStoreSet_error_events cfg s (unsealKeyForID cfg i) k m ev0 hov hks
          with he | he
        · simp only [storeShares, hks, he, List.cons_append, List.nil_append]
          exact setsGuarded_cons_get h _
        · simp only [storeShares, hks, he, List.cons_append, List.nil_append]
          exact setsGuarded_cons_get_set h _ _

theorem keyStoreSet_keep (cfg : VaultOptions) (s : Store) (key val : String)
    (s' : Store) (ev : List Event) (hov : cfg.OverwriteExisting = false)
    (h : keyStoreSet cfg s key val = (.ok s', ev)) :
    ∀ k v, lookupEntry s.entries k = some v → lookupEntry s'.entries k = some v := by
  intro k v hkv
  obtain ⟨_, hl, _⟩ := keyStoreSet_ok_guard cfg s key val s' ev hov h
  have hinv := keyStoreSet_ok_inv cfg s key val s' ev h
  rw [hinv.1, lookupEntry_setEntry, if_neg]
  · exact hkv
  · intro hc
    rw [hc] at hl
    rw [hl] at hkv
    exact absurd hkv (by simp)

theorem storeShares_keep (cfg : VaultOptions) (hov : cfg.OverwriteExisting = false) :
    ∀ (keys : List String) (s : Store) (i : Nat) (k v : String),
      lookupEntry s.entries k = some v →
      lookupEntry (storeShares cfg s i keys).2.1.entries k = some v := by
  intro keys
  induction keys with
  | nil => intro s i k v hkv; exact hkv
  | cons k0 ks ih =>
    intro s i k v hkv
    cases hks : keyStoreSet cfg s (unsealKeyForID cfg i) k0 with
    | mk r ev0 =>
      cases r with
      | ok s1 =>
        simp only [storeShares, hks]
        exact ih s1 (i + 1) k v
          (keyStoreSet_keep cfg s (unsealKeyForID cfg i) k0 s1 ev0 hov hks k v hkv)
      | error m =>
        simp only [storeShares, hks]
        exact hkv

theorem init_keep_present (cfg : VaultOptions)
    (vinit : Nat → Nat → Except String InitResponse) (s : Store)
    (hov : cfg.OverwriteExisting = false) :
    ∀ k v, lookupEntry s.entries k = some v →
      lookupEntry (Init cfg vinit s).2.1.entries k = some v := by
  intro k v hkv
  cases ht : s.testErr with
  | some m =>
    rw [Init_testFailed_eq cfg vinit s m ht]
    exact hkv
  | none =>
    cases hck : (checkKeys s (initPrecheckKeys cfg)).1 with
    | some k2 =>
      rw [Init_preexisting_eq cfg vinit s k2 hov ht hck]
      exact hkv
    | none =>
      have hpair : (if cfg.OverwriteExisting then ((none, []) : Option String × List Event)
          else checkKeys s (initPrecheckKeys cfg))
            = (none, (checkKeys s (initPrecheckKeys cfg)).2) := by
        rw [hov]
        simp only [Bool.false_eq_true, if_false]
        rw [← hck]
      cases hv : vinit cfg.SecretShares cfg.SecretThreshold with
      | error m =>
        rw [Init_vaultInitFailed_eq cfg vinit s m
          (checkKeys s (initPrecheckKeys cfg)).2 ht hpair hv]
        exact hkv
      | ok resp =>
        cases hss : storeShares cfg s 0 resp.Keys with
        | mk r rest =>
          cases rest with
          | mk s1 ev1 =>
            have hkeep1 : lookupEntry s1.entries k = some v := by
              have hkp := storeShares_keep cfg hov resp.Keys s 0 k v hkv
              rw [hss] at hkp
              exact hkp
            have hEq := Init_run cfg vinit s resp
              (checkKeys s (initPrecheckKeys cfg)).2 ht hpair hv
            rw [hss] at hEq
            cases r with
            | some i =>
              rw [hEq]
              exact hkeep1
            | none =>
              cases hrt : cfg.StoreRootToken with
              | false =>
                rw [hrt] at hEq
                simp only [Bool.false_eq_true, if_false] at hEq
                rw [hEq]
                exact hkeep1
              | true =>
                cases hkr : keyStoreSet cfg s1 (rootTokenKey cfg) resp.RootToken with
                | mk rr ev2 =>
                  cases rr with
                  | ok s2 =>
                    rw [hrt] at hEq
                    simp only [if_true] at hEq
                    rw [hkr] at hEq
                    rw [hEq]
                    exact keyStoreSet_keep cfg s1 (rootTokenKey cfg)
                      resp.RootToken s2 ev2 hov hkr k v hkeep1
                  | error m2 =>
                    rw [hrt] at hEq
                    simp only [if_true] at hEq
                    rw [hkr] at hEq
                    rw [hEq]
                    exact hkeep1

theorem init_trace_guarded (cfg : VaultOptions)
    (vinit : Nat → Nat → Except String InitResponse) (s : Store)
    (hov : cfg.OverwriteExisting = false) :
    setsGuarded (Init cfg vinit s).2.2 = true := by
  cases ht : s.testErr with
  | some m =>
    rw [Init_testFailed_eq cfg vinit s m ht]
    rfl
  | none =>
    cases hck : (checkKeys s (initPrecheckKeys cfg)).1 with
    | some k2 =>
      rw [Init_preexisting_eq cfg vinit s k2 hov ht hck]
      have hg := checkKeys_events_gets s (initPrecheckKeys cfg)
      have h0 : setsGuarded ((checkKeys s (initPrecheckKeys cfg)).2 ++ []) = true :=
        setsGuarded_gets_append hg rfl
      rw [List.append_nil] at h0
      exact setsGuarded_cons_probe h0 _
    | none =>
      have hpair : (if cfg.OverwriteExisting then ((none, []) : Option String × List Event)
          else checkKeys s (initPrecheckKeys cfg))
            = (none, (checkKeys s (initPrecheckKeys cfg)).2) := by
        rw [hov]
        simp only [Bool.false_eq_true, if_false]
        rw [← hck]
      have hg := checkKeys_events_gets s (initPrecheckKeys cfg)
      cases hv : vinit cfg.SecretShares cfg.SecretThreshold with
      | error m =>
        rw [Init_vaultInitFailed_eq cfg vinit s m
          (checkKeys s (initPrecheckKeys cfg)).2 ht hpair hv]
        simp only [List.cons_append]
        refine setsGuarded_cons_probe (setsGuarded_gets_append hg (by rfl)) _
      | ok resp =>
        cases hss : storeShares cfg s 0 resp.Keys with
        | mk r rest =>
          cases rest with
          | mk s1 ev1 =>
            have hEq := Init_run cfg vinit s resp
              (checkKeys s (initPrecheckKeys cfg)).2 ht hpair hv
            rw [hss] at hEq
            have hev1 : ∀ rest2, setsGuarded rest2 = true →
                setsGuarded (ev1 ++ rest2) = true := by
              intro rest2 h2
              have hh := storeShares_guarded cfg hov resp.Keys s 0 rest2 h2
              rw [hss] at hh
              exact hh
            cases r with
            | some i =>
              rw [hEq]
              simp only [List.cons_append, List.append_assoc, List.singleton_append]
              refine setsGuarded_cons_probe (setsGuarded_gets_append hg ?_) _
              refine setsGuarded_cons_vaultInit ?_ _ _
              have hh := hev1 [] rfl
              rwa [List.append_nil] at hh
            | none =>
              cases hrt : cfg.StoreRootToken with
              | false =>
                rw [hrt] at hEq
                simp only [Bool.false_eq_true, if_false] at hEq
                rw [hEq]
                simp only [List.cons_append, List.append_assoc, List.singleton_append]
                refine setsGuarded_cons_probe (setsGuarded_gets_append hg ?_) _
                refine setsGuarded_cons_vaultInit ?_ _ _
                have hh := hev1 [] rfl
                rwa [List.append_nil] at hh
              | true =>
                cases hkr : keyStoreSet cfg s1 (rootTokenKey cfg) resp.RootToken with
                | mk rr ev2 =>
                  have hev2 : setsGuarded ev2 = true := by
                    cases rr with
                    | ok s2 =>
                      obtain ⟨_, _, he⟩ := keyStoreSet_ok_guard cfg s1 (rootTokenKey cfg)
                        resp.RootToken s2 ev2 hov hkr
                      rw [he]
                      exact setsGuarded_cons_get_set (by rfl) _ _
                    | error m2 =>
                      rcases keyStoreSet_error_events cfg s1 (rootTokenKey cfg)
                        resp.RootToken m2 ev2 hov hkr with he | he
                      · rw [he]
                        exact setsGuarded_cons_get (by rfl) _
                      · rw [he]
                        exact setsGuarded_cons_get_set (by rfl) _ _
                  cases rr with
                  | ok s2 =>
                    rw [hrt] at hEq
                    simp only [if_true] at hEq
                    rw [hkr] at hEq
                    rw [hEq]
                    simp only [List.cons_append, List.append_assoc, List.singleton_append]
                    refine setsGuarded_cons_probe (setsGuarded_gets_append hg ?_) _
                    exact setsGuarded_cons_vaultInit (hev1 ev2 hev2) _ _
                  | error m2 =>
                    rw [hrt] at hEq
                    simp only [if_true] at hEq
                    rw [hkr] at hEq
                    rw [hEq]
                    simp only [List.cons_append, List.append_assoc, List.singleton_append]
                    refine setsGuarded_cons_probe (setsGuarded_gets_append hg ?_) _
                    exact setsGuarded_cons_vaultInit (hev1 ev2 hev2) _ _

/-- C10: with `OverwriteExisting = false`, every write `keyStoreSet` issues
is immediately preceded by a `Get` of the same key and happens only when
that `Get` reported the distinguished not-found error; the key being
present, or any other lookup outcome — including a transient error on an
absent key — blocks the write with an error and no `Set` call; consequently
`Init` never replaces an existing keystore value, and every `Init` trace
has each write immediately preceded by its guarding read. -/
theorem no_clobber_invariant (cfg : VaultOptions)
    (vinit : Nat → Nat → Except String InitResponse) (s : Store)
    (key val : String) (hov : cfg.OverwriteExisting = false) :
    (keyStoreNotFoundB s key = true ↔ s.get key = .notFound) ∧
    (keyStoreNotFoundB s key = true →
      (keyStoreSet cfg s key val).2 = [Event.get key, Event.set key val]) ∧
    (keyStoreNotFoundB s key = false →
      (keyStoreSet cfg s key val).2 = [Event.get key] ∧
      ∃ m, (keyStoreSet cfg s key val).1 = Except.error m) ∧
    (∀ m, s.getErr key = some m → keyStoreNotFoundB s key = false) ∧
    (∀ k v, lookupEntry s.entries k = some v →
      lookupEntry (Init cfg vinit s).2.1.entries k = some v) ∧
    setsGuarded (Init cfg vinit s).2.2 = true := by
  refine ⟨keyStoreNotFoundB_iff s key, ?_, ?_, ?_,
    init_keep_present cfg vinit s hov, init_trace_guarded cfg vinit s hov⟩
  · intro hb
    unfold keyStoreSet
    rw [hov]
    simp [hb]
  · intro hb
    unfold keyStoreSet
    rw [hov]
    simp [hb]
  · intro m hm
    unfold keyStoreNotFoundB Store.get
    rw [hm]

/-- Witness for C10: a transient lookup error on `prod-flaky` blocks a
write there despite the key being absent, while an unrelated existing entry
`other` survives a full successful `Init` whose trace is guarded. -/
theorem no_clobber_invariant_witness :
    (keyStoreNotFoundB
        ⟨[("other", "keep")], fun k => if k = "prod-flaky" then some "boom" else none,
          fun _ => none, none⟩ "prod-flaky" = true ↔
      Store.get ⟨[("other", "keep")], fun k => if k = "prod-flaky" then some "boom" else none,
          fun _ => none, none⟩ "prod-flaky" = .notFound) ∧
    (keyStoreNotFoundB
        ⟨[("other", "keep")], fun k => if k = "prod-flaky" then some "boom" else none,
          fun _ => none, none⟩ "prod-flaky" = true →
      (keyStoreSet ⟨"prod", 2, 2, false, true⟩
        ⟨[("other", "keep")], fun k => if k = "prod-flaky" then some "boom" else none,
          fun _ => none, none⟩ "prod-flaky" "v").2
        = [Event.get "prod-flaky", Event.set "prod-flaky" "v"]) ∧
    (keyStoreNotFoundB
        ⟨[("other", "keep")], fun k => if k = "prod-flaky" then some "boom" else none,
          fun _ => none, none⟩ "prod-flaky" = false →
      (keyStoreSet ⟨"prod", 2, 2, false, true⟩
        ⟨[("other", "keep")], fun k => if k = "prod-flaky" then some "boom" else none,
          fun _ => none, none⟩ "prod-flaky" "v").2 = [Event.get "prod-flaky"] ∧
      ∃ m, (keyStoreSet ⟨"prod", 2, 2, false, true⟩
        ⟨[("other", "keep")], fun k => if k = "prod-flaky" then some "boom" else none,
          fun _ => none, none⟩ "prod-flaky" "v").1 = Except.error m) ∧
    (∀ m, (if "prod-flaky" = "prod-flaky" then some "boom" else none) = some m →
      keyStoreNotFoundB
        ⟨[("other", "keep")], fun k => if k = "prod-flaky" then some "boom" else none,
          fun _ => none, none⟩ "prod-flaky" = false) ∧
    (∀ k v, lookupEntry [("other", "keep")] k = some v →
      lookupEntry (Init ⟨"prod", 2, 2, false, true⟩ (fun _ _ => .ok ⟨["a", "b"], "R"⟩)
        ⟨[("other", "keep")], fun k => if k = "prod-flaky" then some "boom" else none,
          fun _ => none, none⟩).2.1.entries k = some v) ∧
    setsGuarded (Init ⟨"prod", 2, 2, false, true⟩ (fun _ _ => .ok ⟨["a", "b"], "R"⟩)
      ⟨[("other", "keep")], fun k => if k = "prod-flaky" then some "boom" else none,
        fun _ => none, none⟩).2.2 = true :=
  no_clobber_invariant ⟨"prod", 2, 2, false, true⟩ (fun _ _ => .ok ⟨["a", "b"], "R"⟩)
    ⟨[("other", "keep")], fun k => if k = "prod-flaky" then some "boom" else none,
      fun _ => none, none⟩ "prod-flaky" "v" rfl

end Unsealer
